import Mathlib

/-!
Verification of the reverse line reader (`src/fileread/last_lines.py`).

The file bytes are modelled as a `List Nat` (one entry per byte, the byte
value); the file-system side (`open`, `seek`, `read`) is replaced by pure
slicing of that list, so `fh.read(chunk_size)` at seek position `p` becomes
the slice `[p, p + chunk_size)` of the content.  Decoded text is modelled as
the list of Unicode codepoints, so `line.decode(encoding) + '\n'` becomes
`t ++ [10]` where `t` is the codepoint list.  `bytes.decode(encoding)` is a
parameter `decode` of the model (the standard library performs it in the
source); `utf8_decode` below is the concrete UTF-8 instance used for all
concrete inputs.

Two embeddings of the same source function are given:
* `last_lines` — the run-to-completion semantics, i.e. what
  `list(last_lines(filename, buf_size, encoding))` produces: either the full
  list of emitted lines or the first error raised.
* `Session` / `pull` — the generator-level semantics: calling the Python
  generator function runs none of its body (`mkSession`), and each `next()`
  (`pull`) resumes the body until the next `yield`, `return` or raise.

Both mirror the source loop: chunks are read backwards, the trailing newline
of the very first chunk is stripped, each chunk is split on the newline byte,
the carried `segment` is appended to the chunk's last fragment, and all
fragments but the first are emitted in reverse order; the final `segment` is
emitted last.  Loops are driven by a fuel argument that is initialised with
`remaining_size`; each iteration consumes at least one byte whenever
`buf_size ≥ 1` (which the entry-point validation guarantees), so the fuel
never runs out on any call the entry point makes.
-/

/-- Error taxonomy of `last_lines`: `configuration` is the `ValueError` of the
`buf_size` validation, `bufferTooSmall` the `BufferTooSmallException`, and
`malformedEncoding` the re-raised `UnicodeDecodeError`. -/
inductive LLError where
  | configuration
  | bufferTooSmall
  | malformedEncoding
deriving DecidableEq, Repr

/-- Python's `lines[-1] += segment`: apply `f` to the last element of a list. -/
def modify_last (f : List Nat → List Nat) : List (List Nat) → List (List Nat)
  | [] => []
  | [a] => [f a]
  | a :: b :: rest => a :: modify_last f (b :: rest)

/-- Codepoint of a two-byte UTF-8 sequence. -/
def cp2 (b b1 : Nat) : Nat := (b - 192) * 64 + (b1 - 128)

/-- Codepoint of a three-byte UTF-8 sequence. -/
def cp3 (b b1 b2 : Nat) : Nat := (b - 224) * 4096 + (b1 - 128) * 64 + (b2 - 128)

/-- Codepoint of a four-byte UTF-8 sequence. -/
def cp4 (b b1 b2 b3 : Nat) : Nat :=
  (b - 240) * 262144 + (b1 - 128) * 4096 + (b2 - 128) * 64 + (b3 - 128)

/-- Validity of the continuation byte of a two-byte sequence. -/
def cont2_ok (b1 : Nat) : Prop := 128 ≤ b1 ∧ b1 < 192

/-- Validity of the continuation bytes of a three-byte sequence: the range of
the first continuation byte excludes overlong forms (lead `0xE0`) and
surrogates (lead `0xED`). -/
def cont3_ok (b b1 b2 : Nat) : Prop :=
  ((if b = 224 then 160 else 128) ≤ b1 ∧ b1 < (if b = 237 then 160 else 192)) ∧
    128 ≤ b2 ∧ b2 < 192

/-- Validity of the continuation bytes of a four-byte sequence: the range of
the first continuation byte excludes overlong forms (lead `0xF0`) and
codepoints above `U+10FFFF` (lead `0xF4`). -/
def cont4_ok (b b1 b2 b3 : Nat) : Prop :=
  ((if b = 240 then 144 else 128) ≤ b1 ∧ b1 < (if b = 244 then 144 else 192)) ∧
    (128 ≤ b2 ∧ b2 < 192) ∧ 128 ≤ b3 ∧ b3 < 192

instance (b1 : Nat) : Decidable (cont2_ok b1) := by
  unfold cont2_ok
  infer_instance

instance (b b1 b2 : Nat) : Decidable (cont3_ok b b1 b2) := by
  unfold cont3_ok
  infer_instance

instance (b b1 b2 b3 : Nat) : Decidable (cont4_ok b b1 b2 b3) := by
  unfold cont4_ok
  infer_instance

/-- Strict UTF-8 decoding of a byte list into the list of codepoints, as
`bytes.decode('utf-8')` performs it: rejects stray continuation bytes
(`0x80`–`0xC1` as lead), truncated sequences, overlong forms, surrogates and
codepoints above `U+10FFFF`.  The lead byte classes are: `< 0x80` ASCII,
`< 0xC2` invalid, `< 0xE0` two bytes, `< 0xF0` three bytes, `< 0xF5` four
bytes, `≥ 0xF5` invalid. -/
def utf8_decode : List Nat → Option (List Nat)
  | [] => some []
  | [b] =>
    if b < 128 then (utf8_decode ([] : List Nat)).map (fun t => b :: t)
    else none
  | [b, b1] =>
    if b < 128 then (utf8_decode [b1]).map (fun t => b :: t)
    else if b < 194 then none
    else if b < 224 then
      if cont2_ok b1 then (utf8_decode ([] : List Nat)).map (fun t => cp2 b b1 :: t)
      else none
    else none
  | [b, b1, b2] =>
    if b < 128 then (utf8_decode [b1, b2]).map (fun t => b :: t)
    else if b < 194 then none
    else if b < 224 then
      if cont2_ok b1 then (utf8_decode [b2]).map (fun t => cp2 b b1 :: t)
      else none
    else if b < 240 then
      if cont3_ok b b1 b2 then (utf8_decode ([] : List Nat)).map (fun t => cp3 b b1 b2 :: t)
      else none
    else none
  | b :: b1 :: b2 :: b3 :: rest =>
    if b < 128 then (utf8_decode (b1 :: b2 :: b3 :: rest)).map (fun t => b :: t)
    else if b < 194 then none
    else if b < 224 then
      if cont2_ok b1 then (utf8_decode (b2 :: b3 :: rest)).map (fun t => cp2 b b1 :: t)
      else none
    else if b < 240 then
      if cont3_ok b b1 b2 then (utf8_decode (b3 :: rest)).map (fun t => cp3 b b1 b2 :: t)
      else none
    else if b < 245 then
      if cont4_ok b b1 b2 b3 then (utf8_decode rest).map (fun t => cp4 b b1 b2 b3 :: t)
      else none
    else none

/-- ASCII lower-casing of one character (encoding names are ASCII, so this is
what `str.lower()` does to them). -/
def ascii_lower (c : Char) : Char :=
  if 65 ≤ c.toNat ∧ c.toNat ≤ 90 then Char.ofNat (c.toNat + 32) else c

/-- The name normalisation `encoding.lower().replace('-', '')` of the source,
as a character list. -/
def normalize_encoding (encoding : String) : List Char :=
  (encoding.data.map ascii_lower).filter (fun c => c ≠ '-')

/-- The validation minimum of `last_lines`:
`4 if encoding.lower().replace('-', '') in ('utf8', 'utf') else 1`. -/
def min_buf_size (encoding : String) : Nat :=
  if normalize_encoding encoding = ['u', 't', 'f', '8'] ∨
     normalize_encoding encoding = ['u', 't', 'f'] then 4 else 1

/-- The end-of-file newline strip of the source
(`if remaining_size == file_size and buffer.endswith(b'\n'): buffer = buffer[:-1]`),
as a function of a byte list. -/
def strip_trailing (l : List Nat) : List Nat :=
  if l.getLast? = some 10 then l.dropLast else l

/-- The logical lines of a file, per the specification (section 4.2 and the
glossary): no lines for an empty file, otherwise the byte content split on
the `\n` delimiter after dropping a single trailing newline. -/
def logical_lines (content : List Nat) : List (List Nat) :=
  if content = [] then [] else (strip_trailing content).splitOn 10

/-- Decode and emit a run of ready line fragments one after the other
(the `for line in reversed(lines[1:])` loop of the source): each fragment is
decoded and gets one `\n` appended; the first decode failure raises `e`
(which the caller picks as `bufferTooSmall` when `remaining_size > 0` and as
the terminal `UnicodeDecodeError` otherwise). -/
def decode_lines (decode : List Nat → Option (List Nat)) (e : LLError) :
    List (List Nat) → Except LLError (List (List Nat))
  | [] => .ok []
  | l :: rest =>
    match decode l with
    | none => .error e
    | some t => (decode_lines decode e rest).map (fun out => (t ++ [10]) :: out)

/-- The `while remaining_size > 0` loop of `last_lines`, followed by the final
emission of the carried `segment`.  `fuel` only drives the recursion: it is
initialised with `remaining_size` by `last_lines` and every iteration removes
`chunk_size = min remaining_size buf_size ≥ 1` bytes (the validation
guarantees `buf_size ≥ 1`), so the `fuel = 0` fallback is never reached from
the entry point.  The source tracks the seek position through `offset` with
`offset = min(file_size, offset + buf_size)`; since `offset` always equals
`file_size - remaining_size + chunk_size` after the update, the chunk read is
the byte range `[remaining_size - chunk_size, remaining_size)`, which is how
it is written here (see `read_chunks` for the embedding that keeps the
`offset` bookkeeping of the source verbatim). -/
def buffer_of (content : List Nat) (buf_size remaining_size : Nat) : List Nat :=
  let chunk_size := min remaining_size buf_size
  let buffer := (content.take remaining_size).drop (remaining_size - chunk_size)
  if remaining_size = content.length ∧ buffer.getLast? = some 10 then
    buffer.dropLast
  else buffer

/-- One step of the line assembly: split the chunk on the newline byte and
append the carried `segment` (if any) to the last fragment
(`lines = buffer.split(b'\n'); if segment is not None: lines[-1] += segment`).
The new carried fragment is `(lines_of …).headI` and the ready fragments are
`(lines_of …).tail`, emitted in reverse. -/
def lines_of (segment : Option (List Nat)) (buffer : List Nat) : List (List Nat) :=
  match segment with
  | some seg => modify_last (fun l => l ++ seg) (buffer.splitOn 10)
  | none => buffer.splitOn 10

/-- The `if segment is not None: yield segment.decode(encoding) + '\n'` epilogue
of the source: a decode failure of the final carried fragment is always
re-raised as `BufferTooSmallException`. -/
def final_segment (decode : List Nat → Option (List Nat)) :
    Option (List Nat) → Except LLError (List (List Nat))
  | none => .ok []
  | some seg =>
    match decode seg with
    | some t => .ok [t ++ [10]]
    | none => .error .bufferTooSmall

def last_lines_go (decode : List Nat → Option (List Nat)) (content : List Nat)
    (buf_size : Nat) :
    Nat → Option (List Nat) → Nat → Except LLError (List (List Nat))
  | 0, segment, remaining_size =>
    -- fuel exhausted: only reachable with `remaining_size = 0` on the calls
    -- the entry point makes, where the loop has ended and the carried
    -- fragment is emitted
    if remaining_size = 0 then final_segment decode segment else .ok []
  | fuel + 1, segment, remaining_size =>
    if remaining_size = 0 then final_segment decode segment
    else
      let lines := lines_of segment (buffer_of content buf_size remaining_size)
      match decode_lines decode
          (if remaining_size - min remaining_size buf_size > 0 then
            .bufferTooSmall else .malformedEncoding)
          lines.tail.reverse with
      | .error e => .error e
      | .ok ts =>
        match last_lines_go decode content buf_size fuel (some lines.headI)
            (remaining_size - min remaining_size buf_size) with
        | .error e => .error e
        | .ok out => .ok (ts ++ out)

/-- Run-to-completion semantics of `last_lines(filename, buf_size, encoding)`:
the file is given by its byte content, and the result is the full list of
emitted lines (each a codepoint list ending in `10`) or the first error
raised while draining the generator. -/
def last_lines (decode : List Nat → Option (List Nat)) (encoding : String)
    (content : List Nat) (buf_size : Nat) : Except LLError (List (List Nat)) :=
  if buf_size < min_buf_size encoding then .error .configuration
  else if content.length = 0 then .ok []
  else last_lines_go decode content buf_size content.length none content.length

/-! Helper lemmas about `List.splitOn`, `List.intercalate` and `modify_last`,
used to reason about the line assembly of `last_lines`. -/

theorem headI_mem {α : Type} [Inhabited α] {l : List α} (h : l ≠ []) :
    l.headI ∈ l := by
  cases l with
  | nil => exact absurd rfl h
  | cons a t => exact List.mem_cons_self a t

theorem splitOn_cons (a x : Nat) (xs : List Nat) :
    (x :: xs).splitOn a =
      if x = a then [] :: xs.splitOn a
      else (xs.splitOn a).modifyHead (List.cons x) := by
  simp only [List.splitOn, List.splitOnP_cons, beq_iff_eq]

theorem splitOn_ne_nil (a : Nat) (l : List Nat) : l.splitOn a ≠ [] :=
  List.splitOnP_ne_nil _ l

theorem splitOn_eq_single {a : Nat} {l : List Nat} (h : a ∉ l) :
    l.splitOn a = [l] :=
  List.splitOnP_eq_single _ _ (fun x hx => by
    simp only [beq_iff_eq]
    rintro rfl
    exact h hx)

theorem splitOn_append_sep (a : Nat) (l₁ l₂ : List Nat) :
    (l₁ ++ a :: l₂).splitOn a = l₁.splitOn a ++ l₂.splitOn a := by
  induction l₁ with
  | nil => simp [splitOn_cons]
  | cons x t ih =>
    by_cases hx : x = a
    · subst hx
      rw [List.cons_append, splitOn_cons, splitOn_cons, if_pos rfl, if_pos rfl,
        ih, List.cons_append]
    · have hne := splitOn_ne_nil a t
      cases ht : t.splitOn a with
      | nil => exact absurd ht hne
      | cons h0 hrest =>
        simp only [List.cons_append, splitOn_cons, if_neg hx, ih, ht,
          List.cons_append, List.modifyHead]

theorem mem_splitOn_not_mem {a : Nat} :
    ∀ {l p : List Nat}, p ∈ l.splitOn a → a ∉ p := by
  intro l
  induction l with
  | nil => intro p hp; simp [List.splitOn] at hp; simp [hp]
  | cons x t ih =>
    intro p hp
    rw [splitOn_cons] at hp
    by_cases hx : x = a
    · rw [if_pos hx] at hp
      rcases List.mem_cons.mp hp with h | h
      · simp [h]
      · exact ih h
    · rw [if_neg hx] at hp
      have hne := splitOn_ne_nil a t
      cases ht : t.splitOn a with
      | nil => exact absurd ht hne
      | cons h0 hrest =>
        rw [ht] at hp
        rcases List.mem_cons.mp hp with h | h
        · subst h
          intro hmem
          rcases List.mem_cons.mp hmem with h10 | h10
          · exact hx h10.symm
          · exact ih (ht ▸ List.mem_cons_self h0 hrest) h10
        · exact ih (ht ▸ List.mem_cons_of_mem h0 h)

theorem length_splitOn (a : Nat) (l : List Nat) :
    (l.splitOn a).length = l.count a + 1 := by
  induction l with
  | nil => simp [List.splitOn]
  | cons x t ih =>
    rw [splitOn_cons]
    by_cases hx : x = a
    · subst hx
      simp [List.count_cons, ih]
    · have hne := splitOn_ne_nil a t
      cases ht : t.splitOn a with
      | nil => exact absurd ht hne
      | cons h0 hrest =>
        rw [ht] at ih
        simp only [if_neg hx, List.modifyHead, List.length_cons, List.count_cons]
        simp only [List.length_cons] at ih
        have : (x == a) = false := by simp [hx]
        simp [this, ih]

theorem intercalate_single (a : Nat) (x : List Nat) : [a].intercalate [x] = x := by
  simp [List.intercalate]

theorem intercalate_cons_ne (a : Nat) (x : List Nat) {l : List (List Nat)}
    (h : l ≠ []) : [a].intercalate (x :: l) = x ++ a :: [a].intercalate l := by
  cases l with
  | nil => exact absurd rfl h
  | cons y t => simp [List.intercalate, List.intersperse_cons_cons]

theorem modify_last_cons₂ (f : List Nat → List Nat) (x y : List Nat)
    (t : List (List Nat)) :
    modify_last f (x :: y :: t) = x :: modify_last f (y :: t) := rfl

theorem modify_last_ne_nil (f : List Nat → List Nat) {l : List (List Nat)}
    (h : l ≠ []) : modify_last f l ≠ [] := by
  cases l with
  | nil => exact absurd rfl h
  | cons x t => cases t <;> simp [modify_last]

theorem length_modify_last (f : List Nat → List Nat) :
    ∀ l : List (List Nat), (modify_last f l).length = l.length := by
  intro l
  induction l with
  | nil => rfl
  | cons x t ih =>
    cases t with
    | nil => rfl
    | cons y t' => simp [modify_last, ih]

theorem intercalate_modify_last (a : Nat) (s : List Nat) :
    ∀ (ls : List (List Nat)), ls ≠ [] →
      [a].intercalate (modify_last (fun l => l ++ s) ls) =
        [a].intercalate ls ++ s := by
  intro ls
  induction ls with
  | nil => intro h; exact absurd rfl h
  | cons x t ih =>
    intro _
    cases t with
    | nil => simp [modify_last, intercalate_single]
    | cons y t' =>
      rw [modify_last_cons₂,
        intercalate_cons_ne a x (modify_last_ne_nil _ (List.cons_ne_nil y t')),
        intercalate_cons_ne a x (List.cons_ne_nil y t'),
        ih (List.cons_ne_nil y t'), List.append_assoc]
      rfl

theorem modify_last_not_mem {a : Nat} {s : List Nat} (hs : a ∉ s) :
    ∀ {ls : List (List Nat)}, (∀ p ∈ ls, a ∉ p) →
      ∀ p ∈ modify_last (fun l => l ++ s) ls, a ∉ p := by
  intro ls
  induction ls with
  | nil => intro _ p hp; simp [modify_last] at hp
  | cons x t ih =>
    intro hall p hp
    cases t with
    | nil =>
      simp only [modify_last, List.mem_singleton] at hp
      subst hp
      intro hmem
      rcases List.mem_append.mp hmem with h | h
      · exact hall x (List.mem_singleton_self x) h
      · exact hs h
    | cons y t' =>
      rw [modify_last_cons₂] at hp
      rcases List.mem_cons.mp hp with h | h
      · subst h; exact hall p (List.mem_cons_self _ _)
      · exact ih (fun q hq => hall q (List.mem_cons_of_mem x hq)) p h

theorem headI_modify_last (f : List Nat → List Nat) (x y : List Nat)
    (t : List (List Nat)) :
    (modify_last f (x :: y :: t)).headI = x := by
  rw [modify_last_cons₂]; rfl

/-- Relation between a raw line fragment and the item emitted for it: the
fragment decodes successfully and the item is the decoded text followed by
one appended newline. -/
def decoded_line (decode : List Nat → Option (List Nat)) (l o : List Nat) : Prop :=
  ∃ t, decode l = some t ∧ o = t ++ [10]

theorem decode_lines_ok {decode : List Nat → Option (List Nat)} {e : LLError} :
    ∀ {ls ts : List (List Nat)},
      decode_lines decode e ls = .ok ts ↔
        List.Forall₂ (decoded_line decode) ls ts := by
  intro ls
  induction ls with
  | nil =>
    intro ts
    constructor
    · intro h
      cases h
      exact List.Forall₂.nil
    · intro h
      cases h
      rfl
  | cons l rest ih =>
    intro ts
    constructor
    · intro h
      simp only [decode_lines] at h
      cases hd : decode l with
      | none => rw [hd] at h; cases h
      | some t =>
        rw [hd] at h
        cases hrec : decode_lines decode e rest with
        | error e' => rw [hrec] at h; cases h
        | ok out =>
          rw [hrec] at h
          simp only [Except.map_ok] at h
          cases h
          exact List.Forall₂.cons ⟨t, hd, rfl⟩ (ih.mp hrec)
    · intro h
      cases h with
      | cons hrel hrest =>
        obtain ⟨t, hd, rfl⟩ := hrel
        simp only [decode_lines, hd, ih.mpr hrest]
        rfl

theorem dropLast_drop_comm (l : List Nat) (k : Nat) :
    (l.drop k).dropLast = l.dropLast.drop k := by
  rw [List.dropLast_eq_take, List.dropLast_eq_take, List.drop_take, List.length_drop]
  congr 1
  omega

theorem getLast?_drop_of_lt {l : List Nat} {k : Nat} (h : k < l.length) :
    (l.drop k).getLast? = l.getLast? := by
  have h2 : l.drop k ≠ [] := by
    intro hnil
    rw [List.drop_eq_nil_iff] at hnil
    omega
  conv_rhs => rw [← List.take_append_drop k l]
  rw [List.getLast?_append_of_ne_nil _ h2]

theorem take_decomp (content : List Nat) (r cs : Nat) (h : cs ≤ r) :
    content.take r = content.take (r - cs) ++ (content.take r).drop (r - cs) := by
  conv_lhs => rw [← List.take_append_drop (r - cs) (content.take r)]
  rw [List.take_take]
  congr 2
  omega

/-! Unfolding equations for `last_lines_go`. -/

theorem last_lines_go_zero (decode : List Nat → Option (List Nat))
    (content : List Nat) (buf_size fuel : Nat) (segment : Option (List Nat)) :
    last_lines_go decode content buf_size fuel segment 0 =
      final_segment decode segment := by
  cases fuel <;> simp [last_lines_go]

theorem last_lines_go_succ (decode : List Nat → Option (List Nat))
    (content : List Nat) (buf_size fuel : Nat) (segment : Option (List Nat))
    {remaining_size : Nat} (hr : remaining_size ≠ 0) :
    last_lines_go decode content buf_size (fuel + 1) segment remaining_size =
      (match decode_lines decode
          (if remaining_size - min remaining_size buf_size > 0 then
            .bufferTooSmall else .malformedEncoding)
          (lines_of segment (buffer_of content buf_size remaining_size)).tail.reverse with
       | .error e => .error e
       | .ok ts =>
         match last_lines_go decode content buf_size fuel
             (some (lines_of segment (buffer_of content buf_size remaining_size)).headI)
             (remaining_size - min remaining_size buf_size) with
         | .error e => .error e
         | .ok out => .ok (ts ++ out)) := by
  rw [last_lines_go, if_neg hr]

theorem buffer_of_of_ne (content : List Nat) (buf_size : Nat) {remaining : Nat}
    (h : remaining ≠ content.length) :
    buffer_of content buf_size remaining =
      (content.take remaining).drop (remaining - min remaining buf_size) := by
  unfold buffer_of
  rw [if_neg]
  rintro ⟨h1, _⟩
  exact h h1

/-- When every byte already processed and the carried fragment are free of the
newline delimiter, the rest of the run only accumulates bytes into the
carried fragment and finally decodes it: a decode failure there is raised as
`bufferTooSmall` (the final-segment path of the source), never as the
terminal `UnicodeDecodeError`. -/
theorem last_lines_go_no_nl (decode : List Nat → Option (List Nat))
    (content : List Nat) (buf_size : Nat) (hb : 1 ≤ buf_size) :
    ∀ fuel remaining seg, remaining ≤ fuel → remaining < content.length →
      10 ∉ content.take remaining → 10 ∉ seg →
      last_lines_go decode content buf_size fuel (some seg) remaining =
        (match decode (content.take remaining ++ seg) with
         | some t => .ok [t ++ [10]]
         | none => .error .bufferTooSmall) := by
  intro fuel
  induction fuel with
  | zero =>
    intro remaining seg hle _ _ _
    have h0 : remaining = 0 := by omega
    subst h0
    rw [last_lines_go_zero]
    rfl
  | succ f ih =>
    intro remaining seg hle hlt hnc hns
    by_cases hr : remaining = 0
    · subst hr
      rw [last_lines_go_zero]
      rfl
    · have hcsle : min remaining buf_size ≤ remaining := Nat.min_le_left _ _
      have hchunk_nonl :
          10 ∉ (content.take remaining).drop (remaining - min remaining buf_size) :=
        fun hmem => hnc (List.drop_subset _ _ hmem)
      have hlines : lines_of (some seg) (buffer_of content buf_size remaining) =
          [(content.take remaining).drop (remaining - min remaining buf_size) ++ seg] := by
        rw [lines_of, buffer_of_of_ne content buf_size (by omega),
          splitOn_eq_single hchunk_nonl]
        rfl
      have hns' :
          10 ∉ (content.take remaining).drop (remaining - min remaining buf_size) ++ seg := by
        intro hmem
        rcases List.mem_append.mp hmem with h | h
        · exact hchunk_nonl h
        · exact hns h
      have hnc' : 10 ∉ content.take (remaining - min remaining buf_size) := by
        intro hmem
        apply hnc
        have heq : content.take (remaining - min remaining buf_size) =
            (content.take remaining).take (remaining - min remaining buf_size) := by
          rw [List.take_take]
          congr 1
          omega
        rw [heq] at hmem
        exact List.take_subset _ _ hmem
      rw [last_lines_go_succ decode content buf_size f (some seg) hr, hlines]
      show (match last_lines_go decode content buf_size f
              (some ((content.take remaining).drop (remaining - min remaining buf_size) ++ seg))
              (remaining - min remaining buf_size) with
            | Except.error e => (Except.error e : Except LLError (List (List Nat)))
            | Except.ok out => Except.ok ([] ++ out)) = _
      rw [ih (remaining - min remaining buf_size)
        ((content.take remaining).drop (remaining - min remaining buf_size) ++ seg)
        (by omega) (by omega) hnc' hns']
      have hdecomp : content.take (remaining - min remaining buf_size) ++
          ((content.take remaining).drop (remaining - min remaining buf_size) ++ seg) =
          content.take remaining ++ seg := by
        rw [← List.append_assoc, ← take_decomp content remaining _ hcsle]
      rw [hdecomp]
      cases decode (content.take remaining ++ seg) with
      | none => rfl
      | some t => rfl

theorem buffer_of_full (content : List Nat) {buf_size : Nat}
    (h : content.length ≤ buf_size) :
    buffer_of content buf_size content.length = strip_trailing content := by
  unfold buffer_of strip_trailing
  have hcs : min content.length buf_size = content.length := Nat.min_eq_left h
  simp only [hcs, Nat.sub_self, List.drop_zero, List.take_length, true_and]

/-- A `buf_size` that spans the whole file makes the loop read a single chunk:
the stripped whole content is split, the tail fragments are emitted in
reverse with the terminal error kind (nothing remains unconsumed), and the
head fragment becomes the final carried segment, whose decode failure is
`bufferTooSmall`. -/
theorem last_lines_go_single_chunk (decode : List Nat → Option (List Nat))
    (content : List Nat) (buf_size fuel : Nat) (hne : content ≠ [])
    (hbuf : content.length ≤ buf_size) (hfuel : 1 ≤ fuel) :
    last_lines_go decode content buf_size fuel none content.length =
      (match decode_lines decode .malformedEncoding
          ((strip_trailing content).splitOn 10).tail.reverse with
       | .error e => .error e
       | .ok ts =>
         match decode ((strip_trailing content).splitOn 10).headI with
         | some t => .ok (ts ++ [t ++ [10]])
         | none => .error .bufferTooSmall) := by
  cases fuel with
  | zero => omega
  | succ f =>
    have hr : content.length ≠ 0 := by
      intro h
      exact hne (List.eq_nil_of_length_eq_zero h)
    rw [last_lines_go_succ decode content buf_size f none hr]
    rw [buffer_of_full content hbuf]
    have hrem : content.length - min content.length buf_size = 0 := by omega
    rw [hrem]
    have hif : (if 0 > 0 then LLError.bufferTooSmall else LLError.malformedEncoding) =
        LLError.malformedEncoding := rfl
    rw [hif]
    show (match decode_lines decode .malformedEncoding
            ((strip_trailing content).splitOn 10).tail.reverse with
          | Except.error e => (Except.error e : Except LLError (List (List Nat)))
          | Except.ok ts =>
            match last_lines_go decode content buf_size f
                (some ((strip_trailing content).splitOn 10).headI) 0 with
            | Except.error e => Except.error e
            | Except.ok out => Except.ok (ts ++ out)) = _
    rw [last_lines_go_zero]
    cases decode_lines decode .malformedEncoding
        ((strip_trailing content).splitOn 10).tail.reverse with
    | error e => rfl
    | ok ts =>
      cases hd : decode ((strip_trailing content).splitOn 10).headI with
      | some t => simp [final_segment, hd]
      | none => simp [final_segment, hd]

theorem chunk_eq_intercalate {chunk : List Nat} {ls : List (List Nat)}
    (h : chunk.splitOn 10 = ls) : chunk = [10].intercalate ls := by
  rw [← h, List.intercalate_splitOn]

theorem one_le_min_buf_size (encoding : String) : 1 ≤ min_buf_size encoding := by
  unfold min_buf_size
  split <;> omega

theorem final_segment_forall₂ {decode : List Nat → Option (List Nat)}
    {seg : List Nat} {outl : List (List Nat)} (hns : 10 ∉ seg)
    (h : final_segment decode (some seg) = .ok outl) :
    List.Forall₂ (decoded_line decode) (seg.splitOn 10) outl.reverse := by
  cases hd : decode seg with
  | none =>
    simp only [final_segment, hd] at h
    exact Except.noConfusion h
  | some t =>
    simp only [final_segment, hd] at h
    cases h
    rw [splitOn_eq_single hns]
    exact List.Forall₂.cons ⟨t, hd, rfl⟩ List.Forall₂.nil

/-- Main loop invariant of the success path: from a state where `seg` is the
delimiter-free carried fragment and `remaining` bytes are still unread (past
the first chunk, so no trailing strip applies), a successful run emits, in
reverse order, exactly the decoded logical lines of the unread prefix
followed by the carried fragment. -/
theorem last_lines_go_ok (decode : List Nat → Option (List Nat))
    (content : List Nat) (buf_size : Nat) (hb : 1 ≤ buf_size) :
    ∀ fuel remaining seg out, remaining ≤ fuel → remaining < content.length →
      10 ∉ seg →
      last_lines_go decode content buf_size fuel (some seg) remaining = .ok out →
      List.Forall₂ (decoded_line decode)
        ((content.take remaining ++ seg).splitOn 10) out.reverse := by
  intro fuel
  induction fuel with
  | zero =>
    intro remaining seg out hle _ hns hok
    have h0 : remaining = 0 := by omega
    subst h0
    rw [last_lines_go_zero] at hok
    simpa only [List.take_zero, List.nil_append] using
      final_segment_forall₂ hns hok
  | succ f ih =>
    intro remaining seg out hle hlt hns hok
    by_cases hr : remaining = 0
    · subst hr
      rw [last_lines_go_zero] at hok
      simpa only [List.take_zero, List.nil_append] using
        final_segment_forall₂ hns hok
    · rw [last_lines_go_succ decode content buf_size f (some seg) hr] at hok
      have hcsle : min remaining buf_size ≤ remaining := Nat.min_le_left _ _
      rw [buffer_of_of_ne content buf_size (by omega)] at hok
      simp only [lines_of] at hok
      cases hsplit :
          ((content.take remaining).drop (remaining - min remaining buf_size)).splitOn 10 with
      | nil => exact absurd hsplit (splitOn_ne_nil _ _)
      | cons l₀ lrest =>
        rw [hsplit] at hok
        have hpieces : ∀ p ∈ l₀ :: lrest, 10 ∉ p := fun p hp =>
          mem_splitOn_not_mem (hsplit ▸ hp)
        have h10l₀ : 10 ∉ l₀ := hpieces l₀ (List.mem_cons_self _ _)
        have htd : content.take remaining =
            content.take (remaining - min remaining buf_size) ++
              (content.take remaining).drop (remaining - min remaining buf_size) :=
          take_decomp content remaining _ hcsle
        cases lrest with
        | nil =>
          -- the chunk holds no delimiter: it is prepended to the carried fragment
          have hchunk : (content.take remaining).drop (remaining - min remaining buf_size) = l₀ := by
            have h3 := chunk_eq_intercalate hsplit
            rw [intercalate_single] at h3
            exact h3
          simp only [modify_last, List.tail_cons, List.reverse_nil, List.headI] at hok
          have hdl : decode_lines decode
              (if remaining - min remaining buf_size > 0 then LLError.bufferTooSmall
               else LLError.malformedEncoding) [] = .ok [] := rfl
          rw [hdl] at hok
          cases hrec : last_lines_go decode content buf_size f (some (l₀ ++ seg))
              (remaining - min remaining buf_size) with
          | error e => rw [hrec] at hok; exact Except.noConfusion hok
          | ok out' =>
            rw [hrec] at hok
            cases hok
            have hns' : 10 ∉ l₀ ++ seg := by
              intro hmem
              rcases List.mem_append.mp hmem with h | h
              · exact h10l₀ h
              · exact hns h
            have hih := ih (remaining - min remaining buf_size) (l₀ ++ seg) out'
              (by omega) (by omega) hns' hrec
            rw [htd, hchunk, List.append_assoc, List.nil_append]
            exact hih
        | cons m ms =>
          rw [modify_last_cons₂] at hok
          simp only [List.tail_cons, List.headI] at hok
          cases hdl : decode_lines decode
              (if remaining - min remaining buf_size > 0 then LLError.bufferTooSmall
               else LLError.malformedEncoding)
              ((modify_last (fun l => l ++ seg) (m :: ms)).reverse) with
          | error e => rw [hdl] at hok; exact Except.noConfusion hok
          | ok ts =>
            rw [hdl] at hok
            cases hrec : last_lines_go decode content buf_size f (some l₀)
                (remaining - min remaining buf_size) with
            | error e => rw [hrec] at hok; exact Except.noConfusion hok
            | ok out' =>
              rw [hrec] at hok
              cases hok
              have hforall_ts :
                  List.Forall₂ (decoded_line decode)
                    (modify_last (fun l => l ++ seg) (m :: ms)) ts.reverse := by
                have h1 := decode_lines_ok.mp hdl
                have h2 := List.rel_reverse h1
                simpa using h2
              have hih := ih (remaining - min remaining buf_size) l₀ out'
                (by omega) (by omega) h10l₀ hrec
              have hmodmem : ∀ p ∈ modify_last (fun l => l ++ seg) (m :: ms), 10 ∉ p :=
                modify_last_not_mem hns
                  (fun p hp => hpieces p (List.mem_cons_of_mem _ hp))
              have hchunk_eq :
                  (content.take remaining).drop (remaining - min remaining buf_size) =
                    l₀ ++ 10 :: [10].intercalate (m :: ms) := by
                have h3 := chunk_eq_intercalate hsplit
                rw [intercalate_cons_ne 10 l₀ (List.cons_ne_nil m ms)] at h3
                exact h3
              have hsplit_whole : (content.take remaining ++ seg).splitOn 10 =
                  (content.take (remaining - min remaining buf_size) ++ l₀).splitOn 10 ++
                    modify_last (fun l => l ++ seg) (m :: ms) := by
                rw [htd, hchunk_eq]
                have hassoc :
                    (content.take (remaining - min remaining buf_size) ++
                      (l₀ ++ 10 :: [10].intercalate (m :: ms))) ++ seg =
                    (content.take (remaining - min remaining buf_size) ++ l₀) ++
                      10 :: ([10].intercalate (m :: ms) ++ seg) := by
                  simp [List.append_assoc]
                rw [hassoc, splitOn_append_sep]
                congr 1
                rw [← intercalate_modify_last 10 seg (m :: ms) (List.cons_ne_nil m ms)]
                exact List.splitOn_intercalate _ 10 hmodmem
                  (modify_last_ne_nil _ (List.cons_ne_nil m ms))
              rw [hsplit_whole, List.reverse_append]
              exact List.rel_append hih hforall_ts

theorem take_strip_trailing (content : List Nat) {k : Nat}
    (hk : k + 1 ≤ content.length) :
    (strip_trailing content).take k = content.take k := by
  unfold strip_trailing
  split
  · rw [List.dropLast_eq_take, List.take_take]
    congr 1
    omega
  · rfl

/-- On the very first chunk (`remaining_size = file_size`) the source reads
the file's tail slice and strips its trailing newline; this equals the tail
slice of the stripped content. -/
theorem buffer_of_first (content : List Nat) (buf_size : Nat) (hne : content ≠ [])
    (hb : 1 ≤ buf_size) :
    buffer_of content buf_size content.length =
      (strip_trailing content).drop (content.length - min content.length buf_size) := by
  have hlen : 1 ≤ content.length := List.length_pos.mpr hne
  have hlt : content.length - min content.length buf_size < content.length := by omega
  unfold buffer_of
  simp only [List.take_length, true_and]
  by_cases hl : content.getLast? = some 10
  · have hlast :
        (content.drop (content.length - min content.length buf_size)).getLast? =
          some 10 := by
      rw [getLast?_drop_of_lt hlt]
      exact hl
    rw [if_pos hlast]
    unfold strip_trailing
    rw [if_pos hl, dropLast_drop_comm]
  · have hlast :
        ¬(content.drop (content.length - min content.length buf_size)).getLast? =
          some 10 := by
      rw [getLast?_drop_of_lt hlt]
      exact hl
    rw [if_neg hlast]
    unfold strip_trailing
    rw [if_neg hl]

theorem last_lines_go_unfold (decode : List Nat → Option (List Nat))
    (content : List Nat) (buf_size : Nat) {fuel remaining_size : Nat}
    (hf : 1 ≤ fuel) (hr : remaining_size ≠ 0) (segment : Option (List Nat)) :
    last_lines_go decode content buf_size fuel segment remaining_size =
      (match decode_lines decode
          (if remaining_size - min remaining_size buf_size > 0 then
            .bufferTooSmall else .malformedEncoding)
          (lines_of segment (buffer_of content buf_size remaining_size)).tail.reverse with
       | .error e => .error e
       | .ok ts =>
         match last_lines_go decode content buf_size (fuel - 1)
             (some (lines_of segment (buffer_of content buf_size remaining_size)).headI)
             (remaining_size - min remaining_size buf_size) with
         | .error e => .error e
         | .ok out => .ok (ts ++ out)) := by
  cases fuel with
  | zero => omega
  | succ f => exact last_lines_go_succ decode content buf_size f segment hr

/-- Success characterisation of the whole run: whenever
`list(last_lines(...))` completes without error, the output in reverse is
exactly the list of logical lines of the file, each decoded and with one
newline appended. -/
theorem last_lines_ok_spec {decode : List Nat → Option (List Nat)}
    {encoding : String} {content : List Nat} {buf_size : Nat}
    {out : List (List Nat)}
    (hok : last_lines decode encoding content buf_size = .ok out) :
    List.Forall₂ (decoded_line decode) (logical_lines content) out.reverse := by
  unfold last_lines at hok
  by_cases hv : buf_size < min_buf_size encoding
  · rw [if_pos hv] at hok
    exact Except.noConfusion hok
  rw [if_neg hv] at hok
  have hb : 1 ≤ buf_size := by
    have := one_le_min_buf_size encoding
    omega
  by_cases hc : content.length = 0
  · rw [if_pos hc] at hok
    cases hok
    have hnil : content = [] := List.eq_nil_of_length_eq_zero hc
    subst hnil
    simp [logical_lines]
  rw [if_neg hc] at hok
  have hne : content ≠ [] := fun h => hc (by rw [h]; rfl)
  have hlen : 1 ≤ content.length := List.length_pos.mpr hne
  rw [last_lines_go_unfold decode content buf_size (by omega) hc none] at hok
  rw [buffer_of_first content buf_size hne hb] at hok
  simp only [lines_of] at hok
  have hr₁lt : content.length - min content.length buf_size < content.length := by
    omega
  have hr₁eff : content.length - min content.length buf_size + 1 ≤ content.length := by
    omega
  have htake :
      (strip_trailing content).take (content.length - min content.length buf_size) =
        content.take (content.length - min content.length buf_size) :=
    take_strip_trailing content hr₁eff
  have hll : logical_lines content = (strip_trailing content).splitOn 10 := by
    rw [logical_lines, if_neg hne]
  cases hsplit :
      ((strip_trailing content).drop
        (content.length - min content.length buf_size)).splitOn 10 with
  | nil => exact absurd hsplit (splitOn_ne_nil _ _)
  | cons l₀ lrest =>
    rw [hsplit] at hok
    have hpieces : ∀ p ∈ l₀ :: lrest, 10 ∉ p := fun p hp =>
      mem_splitOn_not_mem (hsplit ▸ hp)
    have h10l₀ : 10 ∉ l₀ := hpieces l₀ (List.mem_cons_self _ _)
    have heffd := List.take_append_drop
      (content.length - min content.length buf_size) (strip_trailing content)
    cases lrest with
    | nil =>
      have hchunk :
          (strip_trailing content).drop
            (content.length - min content.length buf_size) = l₀ := by
        have h3 := chunk_eq_intercalate hsplit
        rw [intercalate_single] at h3
        exact h3
      simp only [List.tail_cons, List.reverse_nil, List.headI] at hok
      have hdl : decode_lines decode
          (if content.length - min content.length buf_size > 0 then
            LLError.bufferTooSmall else LLError.malformedEncoding) [] = .ok [] := rfl
      rw [hdl] at hok
      cases hrec : last_lines_go decode content buf_size (content.length - 1)
          (some l₀) (content.length - min content.length buf_size) with
      | error e => rw [hrec] at hok; exact Except.noConfusion hok
      | ok out' =>
        rw [hrec] at hok
        cases hok
        have hih := last_lines_go_ok decode content buf_size hb
          (content.length - 1) (content.length - min content.length buf_size)
          l₀ out' (by omega) hr₁lt h10l₀ hrec
        rw [hll, ← heffd, hchunk, htake]
        simpa using hih
    | cons m ms =>
      simp only [List.tail_cons, List.headI] at hok
      cases hdl : decode_lines decode
          (if content.length - min content.length buf_size > 0 then
            LLError.bufferTooSmall else LLError.malformedEncoding)
          ((m :: ms).reverse) with
      | error e => rw [hdl] at hok; exact Except.noConfusion hok
      | ok ts =>
        rw [hdl] at hok
        cases hrec : last_lines_go decode content buf_size (content.length - 1)
            (some l₀) (content.length - min content.length buf_size) with
        | error e => rw [hrec] at hok; exact Except.noConfusion hok
        | ok out' =>
          rw [hrec] at hok
          cases hok
          have hforall_ts :
              List.Forall₂ (decoded_line decode) (m :: ms) ts.reverse := by
            have h1 := decode_lines_ok.mp hdl
            have h2 := List.rel_reverse h1
            simpa using h2
          have hih := last_lines_go_ok decode content buf_size hb
            (content.length - 1) (content.length - min content.length buf_size)
            l₀ out' (by omega) hr₁lt h10l₀ hrec
          have hchunk_eq :
              (strip_trailing content).drop
                (content.length - min content.length buf_size) =
                l₀ ++ 10 :: [10].intercalate (m :: ms) := by
            have h3 := chunk_eq_intercalate hsplit
            rw [intercalate_cons_ne 10 l₀ (List.cons_ne_nil m ms)] at h3
            exact h3
          have hsplit_whole : (strip_trailing content).splitOn 10 =
              (content.take (content.length - min content.length buf_size) ++
                l₀).splitOn 10 ++ (m :: ms) := by
            conv_lhs => rw [← heffd]
            rw [hchunk_eq, htake]
            have hassoc :
                content.take (content.length - min content.length buf_size) ++
                  (l₀ ++ 10 :: [10].intercalate (m :: ms)) =
                (content.take (content.length - min content.length buf_size) ++
                  l₀) ++ 10 :: [10].intercalate (m :: ms) := by
              simp [List.append_assoc]
            rw [hassoc, splitOn_append_sep]
            congr 1
            exact List.splitOn_intercalate _ 10
              (fun p hp => hpieces p (List.mem_cons_of_mem _ hp))
              (List.cons_ne_nil m ms)
          rw [hll, hsplit_whole, List.reverse_append]
          exact List.rel_append hih hforall_ts

/-! Generator-level embedding: Python generator semantics.  Calling
`last_lines(...)` runs none of the body and returns a suspended generator
(`mkSession`); each `next()` (`pull`) resumes the body until it yields a
line, returns (`stop`), or raises (`err`), after which the generator is
closed (`done`).  The body state is: whether it has started, the carried
`segment`, `remaining_size`, and the split-off lines not yet yielded from
the current chunk (`pending`, next line first — the iteration state of the
`for line in reversed(lines[1:])` loop). -/

structure Session where
  encoding : String
  content : List Nat
  buf_size : Nat
  started : Bool
  done : Bool
  segment : Option (List Nat)
  remaining_size : Nat
  pending : List (List Nat)
deriving DecidableEq, Repr

inductive PullOut where
  | line (l : List Nat)
  | stop
  | err (e : LLError)
deriving DecidableEq, Repr

/-- Calling the generator function: no validation, no file access — nothing
from the body runs until the first pull. -/
def mkSession (encoding : String) (content : List Nat) (buf_size : Nat) : Session :=
  { encoding := encoding, content := content, buf_size := buf_size,
    started := false, done := false, segment := none,
    remaining_size := 0, pending := [] }

/-- The final `yield segment.decode(encoding) + '\n'`: a decode failure of
the carried fragment raises `BufferTooSmallException`, whatever remains. -/
def yield_final (decode : List Nat → Option (List Nat)) (s : Session)
    (seg : List Nat) : PullOut × Session :=
  match decode seg with
  | some t => (.line (t ++ [10]), { s with segment := none })
  | none => (.err .bufferTooSmall, { s with done := true })

/-- Exit of the `while` loop: `if segment is not None: yield segment.decode
(encoding) + '\n'` then return. -/
def drain_segment (decode : List Nat → Option (List Nat)) (s : Session) :
    PullOut × Session :=
  match s.segment with
  | some seg => yield_final decode s seg
  | none => (.stop, { s with done := true })

/-- One chunk read and split (one iteration of the `while` loop up to the
`for` loop): consume `chunk_size = min(remaining_size, buf_size)` bytes, set
the new carried fragment to the first split fragment, and queue the other
fragments in reverse emission order. -/
def advance (s : Session) : Session :=
  { s with
    remaining_size := s.remaining_size - min s.remaining_size s.buf_size,
    segment := some (lines_of s.segment (buffer_of s.content s.buf_size s.remaining_size)).headI,
    pending := (lines_of s.segment (buffer_of s.content s.buf_size s.remaining_size)).tail.reverse }

/-- Yield the next queued line (`yield line.decode(encoding) + '\n'` with its
`try/except`): a decode failure raises `BufferTooSmallException` when bytes
remain unconsumed, else re-raises the `UnicodeDecodeError`. -/
def yield_pending (decode : List Nat → Option (List Nat)) (s : Session)
    (l : List Nat) (rest : List (List Nat)) : PullOut × Session :=
  match decode l with
  | some t => (.line (t ++ [10]), { s with pending := rest })
  | none =>
    (.err (if s.remaining_size > 0 then .bufferTooSmall else .malformedEncoding),
      { s with done := true })

/-- Resume inside the `while remaining_size > 0` loop with no pending lines:
read chunks (several, if a chunk contains no delimiter) until a line can be
yielded, the loop ends, or a decode fails.  `fuel` bounds the iteration as in
`last_lines_go`. -/
def read_step (decode : List Nat → Option (List Nat)) :
    Nat → Session → PullOut × Session
  | 0, s =>
    if s.remaining_size = 0 then drain_segment decode s
    else (.stop, { s with done := true })  -- fuel exhausted: unreachable from pull
  | fuel + 1, s =>
    if s.remaining_size = 0 then drain_segment decode s
    else
      match (advance s).pending with
      | [] => read_step decode fuel (advance s)
      | l :: rest => yield_pending decode (advance s) l rest

/-- One `next()` on the generator: a closed generator raises `StopIteration`;
the first pull starts the body (validation, then the empty-file return, then
the loop); later pulls first drain the pending lines of the current chunk and
only then advance the chunk reader. -/
def pull (decode : List Nat → Option (List Nat)) (s : Session) :
    PullOut × Session :=
  if s.done then (.stop, s)
  else if s.started = false then
    if s.buf_size < min_buf_size s.encoding then
      (.err .configuration, { s with started := true, done := true })
    else if s.content.length = 0 then
      (.stop, { s with started := true, done := true })
    else
      read_step decode s.content.length
        { s with started := true, segment := none,
                 remaining_size := s.content.length, pending := [] }
  else
    match s.pending with
    | l :: rest => yield_pending decode s l rest
    | [] => read_step decode s.remaining_size s

/-- Session states reachable from a fresh generator by pulling. -/
inductive Reachable (decode : List Nat → Option (List Nat)) (encoding : String)
    (content : List Nat) (buf_size : Nat) : Session → Prop
  | init : Reachable decode encoding content buf_size
      (mkSession encoding content buf_size)
  | step {s s' : Session} {o : PullOut} :
      Reachable decode encoding content buf_size s →
      pull decode s = (o, s') →
      Reachable decode encoding content buf_size s'

/-! The backward chunk reader on its own, with the `offset` bookkeeping of
the source kept verbatim: each step sets `offset = min(file_size, offset +
buf_size)`, seeks to `max(0, file_size - offset)` (natural subtraction), and
reads `chunk_size = min(remaining_size, buf_size)` bytes, so one element
`(a, b)` is the byte range `[a, b)` of one `fh.read`. -/

def read_chunks_go (file_size buf_size : Nat) :
    Nat → Nat → Nat → List (Nat × Nat)
  | 0, _, _ => []
  | fuel + 1, offset, remaining_size =>
    if remaining_size = 0 then []
    else
      let offset' := min file_size (offset + buf_size)
      let start := file_size - offset'
      let chunk_size := min remaining_size buf_size
      (start, start + chunk_size) ::
        read_chunks_go file_size buf_size fuel offset' (remaining_size - chunk_size)

def read_chunks (file_size buf_size : Nat) : List (Nat × Nat) :=
  read_chunks_go file_size buf_size file_size 0 file_size

/-- Modelled from the spec (section 4.2): "given `consumed` bytes already
read (starting at 0), the next chunk spans
`[size - min(size, consumed + capacity), size - consumed)`; after reading,
`consumed += chunk length`.  Terminates when `consumed == size`."  This is
the reference formula the reader is compared against. -/
def chunk_spec (size capacity : Nat) : Nat → Nat → List (Nat × Nat)
  | 0, _ => []
  | fuel + 1, consumed =>
    if size - consumed = 0 then []
    else
      (size - min size (consumed + capacity), size - consumed) ::
        chunk_spec size capacity fuel
          (consumed + min (size - consumed) capacity)

/-! Lemmas about the generator-level model. -/

theorem drain_segment_remaining (decode : List Nat → Option (List Nat))
    (s : Session) : ((drain_segment decode s).2).remaining_size = s.remaining_size := by
  unfold drain_segment
  cases hseg : s.segment with
  | none => rfl
  | some seg =>
    show (yield_final decode s seg).2.remaining_size = s.remaining_size
    unfold yield_final
    cases hd : decode seg with
    | some t => rfl
    | none => rfl

theorem lines_of_length (segment : Option (List Nat)) (buffer : List Nat) :
    (lines_of segment buffer).length = (buffer.splitOn 10).length := by
  cases segment with
  | none => rfl
  | some seg => exact length_modify_last _ _

theorem lines_of_ne_nil (segment : Option (List Nat)) (buffer : List Nat) :
    lines_of segment buffer ≠ [] := by
  cases segment with
  | none => exact splitOn_ne_nil 10 buffer
  | some seg => exact modify_last_ne_nil _ (splitOn_ne_nil 10 buffer)

theorem lines_of_headI_nl_free (segment : Option (List Nat)) (buffer : List Nat)
    (hseg : ∀ sg, segment = some sg → 10 ∉ sg) :
    10 ∉ (lines_of segment buffer).headI := by
  cases segment with
  | none =>
    simp only [lines_of]
    exact mem_splitOn_not_mem (l := buffer) (headI_mem (splitOn_ne_nil 10 buffer))
  | some sg =>
    have hsg := hseg sg rfl
    simp only [lines_of]
    cases hsplit : buffer.splitOn 10 with
    | nil => exact absurd hsplit (splitOn_ne_nil _ _)
    | cons l₀ lrest =>
      have h10l₀ : 10 ∉ l₀ := mem_splitOn_not_mem (hsplit ▸ List.mem_cons_self _ _)
      cases lrest with
      | nil =>
        simp only [modify_last, List.headI]
        intro hmem
        rcases List.mem_append.mp hmem with h | h
        · exact h10l₀ h
        · exact hsg h
      | cons m ms =>
        rw [headI_modify_last]
        exact h10l₀

theorem ten_mem_of_pending {segment : Option (List Nat)} {buffer : List Nat}
    {l : List Nat} {rest : List (List Nat)}
    (h : (lines_of segment buffer).tail.reverse = l :: rest) : 10 ∈ buffer := by
  have h2 : 2 ≤ (lines_of segment buffer).length := by
    cases hl : lines_of segment buffer with
    | nil => exact absurd hl (lines_of_ne_nil _ _)
    | cons a t =>
      cases t with
      | nil => rw [hl] at h; simp at h
      | cons b t' => simp
  rw [lines_of_length, length_splitOn] at h2
  by_contra hmem
  rw [List.count_eq_zero_of_not_mem hmem] at h2
  omega

/-- When a mid-session resume reads chunks (pending is empty) and stops with
bytes still unread, the chunk it stopped at — the byte range
`[s'.remaining_size, s'.remaining_size + buf_size)` — contains a newline
delimiter: the reader never advances past a chunk that completes a line. -/
theorem read_step_last_chunk (decode : List Nat → Option (List Nat)) :
    ∀ fuel (s : Session) o s',
      s.remaining_size ≤ fuel → s.remaining_size < s.content.length →
      1 ≤ s.buf_size →
      read_step decode fuel s = (o, s') → 0 < s'.remaining_size →
      10 ∈ (s.content.take (s'.remaining_size + s.buf_size)).drop
        s'.remaining_size := by
  intro fuel
  induction fuel with
  | zero =>
    intro s o s' hle hlt hb hstep hpos
    have h0 : s.remaining_size = 0 := by omega
    simp only [read_step, if_pos h0] at hstep
    have hdr := drain_segment_remaining decode s
    rw [hstep] at hdr
    simp at hdr
    omega
  | succ fuel ih =>
    intro s o s' hle hlt hb hstep hpos
    by_cases h0 : s.remaining_size = 0
    · simp only [read_step, if_pos h0] at hstep
      have hdr := drain_segment_remaining decode s
      rw [hstep] at hdr
      simp at hdr
      omega
    · simp only [read_step, if_neg h0] at hstep
      cases hpend : (advance s).pending with
      | nil =>
        rw [hpend] at hstep
        have hres := ih (advance s) o s'
          (by show s.remaining_size - min s.remaining_size s.buf_size ≤ fuel; omega)
          (by show s.remaining_size - min s.remaining_size s.buf_size < s.content.length; omega)
          hb hstep hpos
        exact hres
      | cons l rest =>
        rw [hpend] at hstep
        have hstep' : yield_pending decode (advance s) l rest = (o, s') := hstep
        have hrem' : s'.remaining_size =
            s.remaining_size - min s.remaining_size s.buf_size := by
          unfold yield_pending at hstep'
          cases hd : decode l with
          | some t => rw [hd] at hstep'; cases hstep'; rfl
          | none => rw [hd] at hstep'; cases hstep'; rfl
        have hcs : min s.remaining_size s.buf_size = s.buf_size := by omega
        have hmem : 10 ∈ buffer_of s.content s.buf_size s.remaining_size :=
          ten_mem_of_pending (show (lines_of s.segment
            (buffer_of s.content s.buf_size s.remaining_size)).tail.reverse =
              l :: rest from hpend)
        rw [buffer_of_of_ne s.content s.buf_size (by omega), hcs] at hmem
        rw [show s.remaining_size - s.buf_size = s'.remaining_size by omega] at hmem
        rw [show s.remaining_size = s'.remaining_size + s.buf_size by omega] at hmem
        exact hmem

theorem drain_segment_segment (decode : List Nat → Option (List Nat)) (s : Session)
    (hs : ∀ sg, s.segment = some sg → 10 ∉ sg) :
    ∀ o s', drain_segment decode s = (o, s') → ∀ sg, s'.segment = some sg → 10 ∉ sg := by
  intro o s' hstep
  unfold drain_segment at hstep
  cases hseg : s.segment with
  | none =>
    rw [hseg] at hstep
    cases hstep
    intro sg h
    exact Option.noConfusion h
  | some sg0 =>
    rw [hseg] at hstep
    have hstep' : yield_final decode s sg0 = (o, s') := hstep
    unfold yield_final at hstep'
    cases hd : decode sg0 with
    | some t =>
      rw [hd] at hstep'
      cases hstep'
      intro sg h
      exact Option.noConfusion h
    | none =>
      rw [hd] at hstep'
      cases hstep'
      intro sg h
      exact hs sg h

theorem read_step_segment (decode : List Nat → Option (List Nat)) :
    ∀ fuel (s : Session),
      (∀ sg, s.segment = some sg → 10 ∉ sg) →
      ∀ o s', read_step decode fuel s = (o, s') →
      ∀ sg, s'.segment = some sg → 10 ∉ sg := by
  intro fuel
  induction fuel with
  | zero =>
    intro s hs o s' hstep
    simp only [read_step] at hstep
    by_cases h0 : s.remaining_size = 0
    · rw [if_pos h0] at hstep
      exact drain_segment_segment decode s hs o s' hstep
    · rw [if_neg h0] at hstep
      cases hstep
      intro sg h
      exact hs sg h
  | succ fuel ih =>
    intro s hs o s' hstep
    simp only [read_step] at hstep
    by_cases h0 : s.remaining_size = 0
    · rw [if_pos h0] at hstep
      exact drain_segment_segment decode s hs o s' hstep
    · rw [if_neg h0] at hstep
      have hadv : ∀ sg, (advance s).segment = some sg → 10 ∉ sg := by
        intro sg h
        have heq : (advance s).segment = some ((lines_of s.segment
            (buffer_of s.content s.buf_size s.remaining_size)).headI) := rfl
        rw [heq] at h
        cases h
        exact lines_of_headI_nl_free s.segment _ hs
      cases hpend : (advance s).pending with
      | nil =>
        rw [hpend] at hstep
        exact ih (advance s) hadv o s' hstep
      | cons l rest =>
        rw [hpend] at hstep
        have hstep' : yield_pending decode (advance s) l rest = (o, s') := hstep
        unfold yield_pending at hstep'
        cases hd : decode l with
        | some t =>
          rw [hd] at hstep'
          cases hstep'
          intro sg h
          exact hadv sg h
        | none =>
          rw [hd] at hstep'
          cases hstep'
          intro sg h
          exact hadv sg h

theorem pull_segment (decode : List Nat → Option (List Nat)) (s : Session)
    (hs : ∀ sg, s.segment = some sg → 10 ∉ sg) :
    ∀ o s', pull decode s = (o, s') → ∀ sg, s'.segment = some sg → 10 ∉ sg := by
  intro o s' hp
  unfold pull at hp
  by_cases hdone : s.done = true
  · rw [if_pos hdone] at hp
    cases hp
    exact hs
  rw [if_neg hdone] at hp
  by_cases hstart : s.started = false
  · rw [if_pos hstart] at hp
    by_cases hval : s.buf_size < min_buf_size s.encoding
    · rw [if_pos hval] at hp
      cases hp
      intro sg h
      exact hs sg h
    rw [if_neg hval] at hp
    by_cases hlen : s.content.length = 0
    · rw [if_pos hlen] at hp
      cases hp
      intro sg h
      exact hs sg h
    rw [if_neg hlen] at hp
    exact read_step_segment decode _ _ (fun sg h => Option.noConfusion h) o s' hp
  · rw [if_neg hstart] at hp
    cases hpend : s.pending with
    | cons l rest =>
      rw [hpend] at hp
      have hp' : yield_pending decode s l rest = (o, s') := hp
      unfold yield_pending at hp'
      cases hd : decode l with
      | some t =>
        rw [hd] at hp'
        cases hp'
        intro sg h
        exact hs sg h
      | none =>
        rw [hd] at hp'
        cases hp'
        intro sg h
        exact hs sg h
    | nil =>
      rw [hpend] at hp
      exact read_step_segment decode _ s hs o s' hp

theorem reachable_segment_nl_free {decode : List Nat → Option (List Nat)}
    {encoding : String} {content : List Nat} {buf_size : Nat} {s : Session}
    (h : Reachable decode encoding content buf_size s) :
    ∀ sg, s.segment = some sg → 10 ∉ sg := by
  induction h with
  | init =>
    intro sg h
    exact Option.noConfusion h
  | step hr hp ih => exact pull_segment decode _ ih _ _ hp

/-! Lemmas about the backward chunk reader. -/

theorem read_chunks_go_zero_rem (size buf : Nat) :
    ∀ fuel offset, read_chunks_go size buf fuel offset 0 = [] := by
  intro fuel offset
  cases fuel <;> rfl

/-- The reader bookkeeping (`offset`, `seek`, `chunk_size`) produces exactly
the chunk ranges of the specification formula
`[size - min(size, consumed + capacity), size - consumed)`. -/
theorem read_chunks_go_eq_spec (size buf : Nat) :
    ∀ fuel offset remaining, offset + remaining = size →
      read_chunks_go size buf fuel offset remaining =
        chunk_spec size buf fuel (size - remaining) := by
  intro fuel
  induction fuel with
  | zero => intro offset remaining _; rfl
  | succ f ih =>
    intro offset remaining hsum
    by_cases hr : remaining = 0
    · subst hr
      simp [read_chunks_go, chunk_spec]
    · simp only [read_chunks_go, chunk_spec]
      rw [if_neg hr, if_neg (by omega : ¬size - (size - remaining) = 0)]
      have hpair : ((size - min size (offset + buf),
          size - min size (offset + buf) + min remaining buf) : Nat × Nat) =
          (size - min size ((size - remaining) + buf), size - (size - remaining)) := by
        simp only [Prod.mk.injEq]
        omega
      have hrec : read_chunks_go size buf f (min size (offset + buf))
          (remaining - min remaining buf) =
          chunk_spec size buf f
            ((size - remaining) + min (size - (size - remaining)) buf) := by
        rw [ih (min size (offset + buf)) (remaining - min remaining buf) (by omega)]
        congr 1
        omega
      rw [hpair, hrec]

theorem read_chunks_go_shape (size buf : Nat) (hb : 1 ≤ buf) :
    ∀ fuel offset remaining, remaining ≤ fuel → offset + remaining = size →
      List.Chain' (fun a b => b.2 = a.1)
        (read_chunks_go size buf fuel offset remaining) ∧
      (read_chunks_go size buf fuel offset remaining).head? =
        (if remaining = 0 then none
         else some (remaining - min remaining buf, remaining)) ∧
      ((read_chunks_go size buf fuel offset remaining).map
        (fun p => p.2 - p.1)).sum = remaining ∧
      ((read_chunks_go size buf fuel offset remaining).getLast?.map Prod.fst =
        (if remaining = 0 then none else some 0)) := by
  intro fuel
  induction fuel with
  | zero =>
    intro offset remaining hle hsum
    have h0 : remaining = 0 := by omega
    subst h0
    simp [read_chunks_go]
  | succ f ih =>
    intro offset remaining hle hsum
    by_cases hr : remaining = 0
    · subst hr
      simp [read_chunks_go]
    · obtain ⟨hchain, hhead, hsumlen, hlast⟩ :=
        ih (min size (offset + buf)) (remaining - min remaining buf)
          (by omega) (by omega)
      simp only [read_chunks_go, if_neg hr]
      refine ⟨?_, ?_, ?_, ?_⟩
      · rw [List.chain'_cons']
        refine ⟨?_, hchain⟩
        intro b hb'
        rw [hhead] at hb'
        by_cases hr' : remaining - min remaining buf = 0
        · rw [if_pos hr'] at hb'
          simp at hb'
        · rw [if_neg hr'] at hb'
          simp only [Option.mem_def, Option.some.injEq] at hb'
          subst hb'
          show remaining - min remaining buf = size - min size (offset + buf)
          omega
      · simp only [List.head?_cons, Option.some.injEq, Prod.mk.injEq]
        omega
      · simp only [List.map_cons, List.sum_cons, hsumlen]
        omega
      · by_cases hr' : remaining - min remaining buf = 0
        · rw [hr', read_chunks_go_zero_rem]
          simp only [List.getLast?_singleton, Option.map_some']
          have : size - min size (offset + buf) = 0 := by omega
          rw [this]
        · have hne : read_chunks_go size buf f (min size (offset + buf))
              (remaining - min remaining buf) ≠ [] := by
            intro h
            rw [h] at hhead
            rw [if_neg hr'] at hhead
            exact Option.noConfusion hhead
          rw [show ((size - min size (offset + buf),
              size - min size (offset + buf) + min remaining buf)) ::
              read_chunks_go size buf f (min size (offset + buf))
                (remaining - min remaining buf) =
              [(size - min size (offset + buf),
                size - min size (offset + buf) + min remaining buf)] ++
              read_chunks_go size buf f (min size (offset + buf))
                (remaining - min remaining buf) from rfl,
            List.getLast?_append_of_ne_nil _ hne, hlast, if_neg hr']

/-! Helpers for the single-line and error-classification results. -/

theorem getLast?_mem_self {l : List Nat} {a : Nat} (h : l.getLast? = some a) :
    a ∈ l := by
  have hm : a ∈ l.getLast? := by rw [Option.mem_def, h]
  obtain ⟨hne, rfl⟩ := List.mem_getLast?_eq_getLast hm
  exact List.getLast_mem hne

theorem strip_trailing_concat (X : List Nat) : strip_trailing (X ++ [10]) = X := by
  unfold strip_trailing
  rw [List.getLast?_concat, if_pos rfl, List.dropLast_concat]

theorem strip_trailing_of_not_mem {l : List Nat} (h : 10 ∉ l) :
    strip_trailing l = l := by
  unfold strip_trailing
  rw [if_neg]
  intro hl
  exact h (getLast?_mem_self hl)

/-- A file that is one delimiter-free line: every chunk is delimiter-free, so
nothing is emitted until the carried fragment — the whole file — is decoded
as the final segment, whose failure is `bufferTooSmall`. -/
theorem last_lines_single_line (decode : List Nat → Option (List Nat))
    (encoding : String) {X : List Nat} {buf_size : Nat}
    (hval : ¬buf_size < min_buf_size encoding) (hX : 10 ∉ X) (hne : X ≠ []) :
    last_lines decode encoding X buf_size =
      (match decode X with
       | some t => .ok [t ++ [10]]
       | none => .error .bufferTooSmall) := by
  have hb : 1 ≤ buf_size := by
    have := one_le_min_buf_size encoding
    omega
  have hlen : X.length ≠ 0 := fun h => hne (List.eq_nil_of_length_eq_zero h)
  unfold last_lines
  rw [if_neg hval, if_neg hlen]
  rw [last_lines_go_unfold decode X buf_size (by omega) hlen none]
  rw [buffer_of_first X buf_size hne hb, strip_trailing_of_not_mem hX]
  have hchunk_nl : 10 ∉ X.drop (X.length - min X.length buf_size) :=
    fun h => hX (List.drop_subset _ _ h)
  have htake_nl : 10 ∉ X.take (X.length - min X.length buf_size) :=
    fun h => hX (List.take_subset _ _ h)
  simp only [lines_of]
  rw [splitOn_eq_single hchunk_nl]
  show (match last_lines_go decode X buf_size (X.length - 1)
          (some (X.drop (X.length - min X.length buf_size)))
          (X.length - min X.length buf_size) with
        | Except.error e => (Except.error e : Except LLError (List (List Nat)))
        | Except.ok out => Except.ok ([] ++ out)) = _
  rw [last_lines_go_no_nl decode X buf_size hb (X.length - 1)
    (X.length - min X.length buf_size) (X.drop (X.length - min X.length buf_size))
    (by omega) (by omega) htake_nl hchunk_nl]
  rw [List.take_append_drop]
  cases decode X with
  | none => rfl
  | some t => rfl

/-- A file that is one delimiter-free line plus a trailing newline: the
newline is stripped from the first chunk, and the run behaves like the
single-line file. -/
theorem last_lines_single_line_trailing (decode : List Nat → Option (List Nat))
    (encoding : String) {X : List Nat} {buf_size : Nat}
    (hval : ¬buf_size < min_buf_size encoding) (hX : 10 ∉ X) :
    last_lines decode encoding (X ++ [10]) buf_size =
      (match decode X with
       | some t => .ok [t ++ [10]]
       | none => .error .bufferTooSmall) := by
  have hb : 1 ≤ buf_size := by
    have := one_le_min_buf_size encoding
    omega
  have hL : (X ++ [10]).length = X.length + 1 := by simp
  have hne : X ++ [10] ≠ [] := by simp
  have hlen : (X ++ [10]).length ≠ 0 := by omega
  unfold last_lines
  rw [if_neg hval, if_neg hlen]
  rw [last_lines_go_unfold decode (X ++ [10]) buf_size (by omega) hlen none]
  rw [buffer_of_first (X ++ [10]) buf_size hne hb, strip_trailing_concat]
  have hr₁X : (X ++ [10]).length - min (X ++ [10]).length buf_size ≤ X.length := by
    omega
  have hchunk_nl :
      10 ∉ X.drop ((X ++ [10]).length - min (X ++ [10]).length buf_size) :=
    fun h => hX (List.drop_subset _ _ h)
  have htake_nl :
      10 ∉ (X ++ [10]).take ((X ++ [10]).length - min (X ++ [10]).length buf_size) := by
    rw [List.take_append_of_le_length hr₁X]
    exact fun h => hX (List.take_subset _ _ h)
  simp only [lines_of]
  rw [splitOn_eq_single hchunk_nl]
  show (match last_lines_go decode (X ++ [10]) buf_size ((X ++ [10]).length - 1)
          (some (X.drop ((X ++ [10]).length - min (X ++ [10]).length buf_size)))
          ((X ++ [10]).length - min (X ++ [10]).length buf_size) with
        | Except.error e => (Except.error e : Except LLError (List (List Nat)))
        | Except.ok out => Except.ok ([] ++ out)) = _
  have hres := last_lines_go_no_nl decode (X ++ [10]) buf_size hb
    ((X ++ [10]).length - 1)
    ((X ++ [10]).length - min (X ++ [10]).length buf_size)
    (X.drop ((X ++ [10]).length - min (X ++ [10]).length buf_size))
    (by omega) (by omega) htake_nl hchunk_nl
  rw [hres, List.take_append_of_le_length hr₁X, List.take_append_drop]
  cases decode X with
  | none => rfl
  | some t => rfl

theorem final_segment_error {decode : List Nat → Option (List Nat)}
    {segment : Option (List Nat)} {e : LLError}
    (h : final_segment decode segment = .error e) : e = .bufferTooSmall := by
  cases segment with
  | none => exact Except.noConfusion h
  | some seg =>
    simp only [final_segment] at h
    cases hd : decode seg with
    | some t => rw [hd] at h; exact Except.noConfusion h
    | none => rw [hd] at h; cases h; rfl

theorem decode_lines_error_kind {decode : List Nat → Option (List Nat)}
    {e0 : LLError} : ∀ {ls : List (List Nat)} {e : LLError},
      decode_lines decode e0 ls = .error e → e = e0 := by
  intro ls
  induction ls with
  | nil => intro e h; exact Except.noConfusion h
  | cons l rest ih =>
    intro e h
    simp only [decode_lines] at h
    cases hd : decode l with
    | none => rw [hd] at h; cases h; rfl
    | some t =>
      rw [hd] at h
      cases hrec : decode_lines decode e0 rest with
      | error e' =>
        rw [hrec] at h
        have h' : (Except.error e' : Except LLError (List (List Nat))) = .error e := h
        cases h'
        exact ih hrec
      | ok out =>
        rw [hrec] at h
        have h' : (Except.ok ((t ++ [10]) :: out) :
            Except LLError (List (List Nat))) = .error e := h
        exact Except.noConfusion h'

/-- The loop only ever raises `bufferTooSmall` or `malformedEncoding`: the
`configuration` error can only come from the validation before the loop. -/
theorem last_lines_go_error_kind (decode : List Nat → Option (List Nat))
    (content : List Nat) (buf_size : Nat) :
    ∀ fuel segment remaining e,
      last_lines_go decode content buf_size fuel segment remaining = .error e →
      e = .bufferTooSmall ∨ e = .malformedEncoding := by
  intro fuel
  induction fuel with
  | zero =>
    intro segment remaining e h
    by_cases hr : remaining = 0
    · subst hr
      rw [last_lines_go_zero] at h
      exact Or.inl (final_segment_error h)
    · simp only [last_lines_go, if_neg hr] at h
      exact Except.noConfusion h
  | succ f ih =>
    intro segment remaining e h
    by_cases hr : remaining = 0
    · subst hr
      rw [last_lines_go_zero] at h
      exact Or.inl (final_segment_error h)
    · rw [last_lines_go_succ decode content buf_size f segment hr] at h
      cases hdl : decode_lines decode
          (if remaining - min remaining buf_size > 0 then LLError.bufferTooSmall
           else LLError.malformedEncoding)
          ((lines_of segment (buffer_of content buf_size remaining)).tail.reverse) with
      | error e' =>
        rw [hdl] at h
        have h' : (Except.error e' : Except LLError (List (List Nat))) = .error e := h
        cases h'
        have := decode_lines_error_kind hdl
        by_cases hrem : remaining - min remaining buf_size > 0
        · rw [if_pos hrem] at this
          exact Or.inl this
        · rw [if_neg hrem] at this
          exact Or.inr this
      | ok ts =>
        rw [hdl] at h
        cases hrec : last_lines_go decode content buf_size f
            (some (lines_of segment (buffer_of content buf_size remaining)).headI)
            (remaining - min remaining buf_size) with
        | error e' =>
          rw [hrec] at h
          have h' : (Except.error e' : Except LLError (List (List Nat))) = .error e := h
          cases h'
          exact ih _ _ _ hrec
        | ok out =>
          rw [hrec] at h
          have h' : (Except.ok (ts ++ out) :
              Except LLError (List (List Nat))) = .error e := h
          exact Except.noConfusion h'

/-- The run fails with `configuration` exactly when the capacity is below the
encoding minimum, whatever the file content — the check precedes all reads. -/
theorem last_lines_config_iff (decode : List Nat → Option (List Nat))
    (encoding : String) (content : List Nat) (buf_size : Nat) :
    last_lines decode encoding content buf_size = .error .configuration ↔
      buf_size < min_buf_size encoding := by
  constructor
  · intro h
    by_contra hv
    unfold last_lines at h
    rw [if_neg hv] at h
    by_cases hc : content.length = 0
    · rw [if_pos hc] at h
      exact Except.noConfusion h
    · rw [if_neg hc] at h
      rcases last_lines_go_error_kind decode content buf_size _ _ _ _ h with h1 | h1 <;>
        exact LLError.noConfusion h1
  · intro h
    unfold last_lines
    rw [if_pos h]

theorem forall₂_mem_right {α β : Type} {R : α → β → Prop} :
    ∀ {as : List α} {bs : List β}, List.Forall₂ R as bs →
      ∀ b ∈ bs, ∃ a ∈ as, R a b := by
  intro as bs h
  induction h with
  | nil => intro b hb; exact absurd hb (List.not_mem_nil b)
  | @cons a b as' bs' hr _ ih =>
    intro b' hb'
    rcases List.mem_cons.mp hb' with rfl | hmem
    · exact ⟨a, List.mem_cons_self _ _, hr⟩
    · obtain ⟨a', ha', hr'⟩ := ih b' hmem
      exact ⟨a', List.mem_cons_of_mem _ ha', hr'⟩

theorem logical_lines_nl_free {content : List Nat} :
    ∀ p ∈ logical_lines content, 10 ∉ p := by
  intro p hp
  unfold logical_lines at hp
  split at hp
  · exact absurd hp (List.not_mem_nil p)
  · exact mem_splitOn_not_mem hp

theorem cp2_ne_ten {b b1 : Nat} (hb : ¬b < 194) (h : cont2_ok b1) :
    cp2 b b1 ≠ 10 := by
  obtain ⟨h1, h2⟩ := h
  unfold cp2
  omega

theorem cp3_ne_ten {b b1 b2 : Nat} (hb : ¬b < 224) (h : cont3_ok b b1 b2) :
    cp3 b b1 b2 ≠ 10 := by
  obtain ⟨⟨h1, h2⟩, h3, h4⟩ := h
  unfold cp3
  by_cases hb' : b = 224
  · rw [if_pos hb'] at h1
    subst hb'
    omega
  · rw [if_neg hb'] at h1
    omega

theorem cp4_ne_ten {b b1 b2 b3 : Nat} (hb : ¬b < 240) (h : cont4_ok b b1 b2 b3) :
    cp4 b b1 b2 b3 ≠ 10 := by
  obtain ⟨⟨h1, h2⟩, ⟨h3, h4⟩, h5, h6⟩ := h
  unfold cp4
  by_cases hb' : b = 240
  · rw [if_pos hb'] at h1
    subst hb'
    omega
  · rw [if_neg hb'] at h1
    omega

theorem mem_ten_step {c : Nat} {rest' ts bs : List Nat}
    (hsub : ∀ x ∈ rest', x ∈ bs) (hc : c = 10 → 10 ∈ bs)
    (ih : ∀ {ts'}, utf8_decode rest' = some ts' → 10 ∈ ts' → 10 ∈ rest')
    (h : (utf8_decode rest').map (fun t => c :: t) = some ts) (hmem : 10 ∈ ts) :
    10 ∈ bs := by
  obtain ⟨ts', hts', rfl⟩ := Option.map_eq_some'.mp h
  rcases List.mem_cons.mp hmem with h10 | h10
  · exact hc h10.symm
  · exact hsub 10 (ih hts' h10)

/-- Strict UTF-8 decoding cannot invent a newline: codepoint `10` in the
output can only come from the single byte `10` in the input (multi-byte
sequences decode to codepoints `≥ 128`). -/
theorem utf8_decode_mem_ten :
    ∀ (n : Nat) (bs : List Nat) {ts : List Nat}, bs.length ≤ n →
      utf8_decode bs = some ts → 10 ∈ ts → 10 ∈ bs := by
  intro n
  induction n with
  | zero =>
    intro bs ts hlen h hmem
    have hbs : bs = [] := List.eq_nil_of_length_eq_zero (by omega)
    subst hbs
    cases h
    exact absurd hmem (List.not_mem_nil 10)
  | succ n ih =>
    intro bs ts hlen h hmem
    match bs, hlen, h with
    | [], _, h =>
      cases h
      exact absurd hmem (List.not_mem_nil 10)
    | [b], hlen, h =>
      have h' : (if b < 128 then (utf8_decode ([] : List Nat)).map (fun t => b :: t)
          else none) = some ts := h
      by_cases h1 : b < 128
      · rw [if_pos h1] at h'
        refine mem_ten_step (fun x hx => absurd hx (List.not_mem_nil x)) ?_
          (fun h hm => ih [] (by simp) h hm) h' hmem
        intro hb10
        subst hb10
        exact List.mem_singleton_self 10
      · rw [if_neg h1] at h'
        exact Option.noConfusion h'
    | [b, b1], hlen, h =>
      have h' : (if b < 128 then (utf8_decode [b1]).map (fun t => b :: t)
          else if b < 194 then none
          else if b < 224 then
            if cont2_ok b1 then (utf8_decode ([] : List Nat)).map (fun t => cp2 b b1 :: t)
            else none
          else none) = some ts := h
      by_cases h1 : b < 128
      · rw [if_pos h1] at h'
        refine mem_ten_step (fun x hx => List.mem_cons_of_mem b hx) ?_
          (fun h hm => ih [b1] (by simp at hlen ⊢; omega) h hm) h' hmem
        intro hb10
        subst hb10
        exact List.mem_cons_self 10 [b1]
      · rw [if_neg h1] at h'
        by_cases h2 : b < 194
        · rw [if_pos h2] at h'
          exact Option.noConfusion h'
        rw [if_neg h2] at h'
        by_cases h3 : b < 224
        · rw [if_pos h3] at h'
          by_cases h4 : cont2_ok b1
          · rw [if_pos h4] at h'
            refine mem_ten_step (fun x hx => absurd hx (List.not_mem_nil x)) ?_
              (fun h hm => ih [] (by simp) h hm) h' hmem
            intro hc
            exact absurd hc (cp2_ne_ten h2 h4)
          · rw [if_neg h4] at h'
            exact Option.noConfusion h'
        · rw [if_neg h3] at h'
          exact Option.noConfusion h'
    | [b, b1, b2], hlen, h =>
      have h' : (if b < 128 then (utf8_decode [b1, b2]).map (fun t => b :: t)
          else if b < 194 then none
          else if b < 224 then
            if cont2_ok b1 then (utf8_decode [b2]).map (fun t => cp2 b b1 :: t)
            else none
          else if b < 240 then
            if cont3_ok b b1 b2 then
              (utf8_decode ([] : List Nat)).map (fun t => cp3 b b1 b2 :: t)
            else none
          else none) = some ts := h
      by_cases h1 : b < 128
      · rw [if_pos h1] at h'
        refine mem_ten_step (fun x hx => List.mem_cons_of_mem b hx) ?_
          (fun h hm => ih [b1, b2] (by simp at hlen ⊢; omega) h hm) h' hmem
        intro hb10
        subst hb10
        exact List.mem_cons_self 10 [b1, b2]
      · rw [if_neg h1] at h'
        by_cases h2 : b < 194
        · rw [if_pos h2] at h'
          exact Option.noConfusion h'
        rw [if_neg h2] at h'
        by_cases h3 : b < 224
        · rw [if_pos h3] at h'
          by_cases h4 : cont2_ok b1
          · rw [if_pos h4] at h'
            refine mem_ten_step
              (fun x hx => List.mem_cons_of_mem b (List.mem_cons_of_mem b1 hx)) ?_
              (fun h hm => ih [b2] (by simp at hlen ⊢; omega) h hm) h' hmem
            intro hc
            exact absurd hc (cp2_ne_ten h2 h4)
          · rw [if_neg h4] at h'
            exact Option.noConfusion h'
        rw [if_neg h3] at h'
        by_cases h5 : b < 240
        · rw [if_pos h5] at h'
          by_cases h6 : cont3_ok b b1 b2
          · rw [if_pos h6] at h'
            refine mem_ten_step (fun x hx => absurd hx (List.not_mem_nil x)) ?_
              (fun h hm => ih [] (by simp) h hm) h' hmem
            intro hc
            exact absurd hc (cp3_ne_ten h3 h6)
          · rw [if_neg h6] at h'
            exact Option.noConfusion h'
        · rw [if_neg h5] at h'
          exact Option.noConfusion h'
    | b :: b1 :: b2 :: b3 :: rest, hlen, h =>
      have h' : (if b < 128 then
            (utf8_decode (b1 :: b2 :: b3 :: rest)).map (fun t => b :: t)
          else if b < 194 then none
          else if b < 224 then
            if cont2_ok b1 then
              (utf8_decode (b2 :: b3 :: rest)).map (fun t => cp2 b b1 :: t)
            else none
          else if b < 240 then
            if cont3_ok b b1 b2 then
              (utf8_decode (b3 :: rest)).map (fun t => cp3 b b1 b2 :: t)
            else none
          else if b < 245 then
            if cont4_ok b b1 b2 b3 then
              (utf8_decode rest).map (fun t => cp4 b b1 b2 b3 :: t)
            else none
          else none) = some ts := h
      by_cases h1 : b < 128
      · rw [if_pos h1] at h'
        refine mem_ten_step (fun x hx => List.mem_cons_of_mem b hx) ?_
          (fun h hm => ih (b1 :: b2 :: b3 :: rest) (by simp at hlen ⊢; omega) h hm)
          h' hmem
        intro hb10
        subst hb10
        exact List.mem_cons_self 10 _
      · rw [if_neg h1] at h'
        by_cases h2 : b < 194
        · rw [if_pos h2] at h'
          exact Option.noConfusion h'
        rw [if_neg h2] at h'
        by_cases h3 : b < 224
        · rw [if_pos h3] at h'
          by_cases h4 : cont2_ok b1
          · rw [if_pos h4] at h'
            refine mem_ten_step
              (fun x hx => List.mem_cons_of_mem b (List.mem_cons_of_mem b1 hx)) ?_
              (fun h hm => ih (b2 :: b3 :: rest) (by simp at hlen ⊢; omega) h hm)
              h' hmem
            intro hc
            exact absurd hc (cp2_ne_ten h2 h4)
          · rw [if_neg h4] at h'
            exact Option.noConfusion h'
        rw [if_neg h3] at h'
        by_cases h5 : b < 240
        · rw [if_pos h5] at h'
          by_cases h6 : cont3_ok b b1 b2
          · rw [if_pos h6] at h'
            refine mem_ten_step
              (fun x hx => List.mem_cons_of_mem b (List.mem_cons_of_mem b1
                (List.mem_cons_of_mem b2 hx))) ?_
              (fun h hm => ih (b3 :: rest) (by simp at hlen ⊢; omega) h hm) h' hmem
            intro hc
            exact absurd hc (cp3_ne_ten h3 h6)
          · rw [if_neg h6] at h'
            exact Option.noConfusion h'
        rw [if_neg h5] at h'
        by_cases h7 : b < 245
        · rw [if_pos h7] at h'
          by_cases h8 : cont4_ok b b1 b2 b3
          · rw [if_pos h8] at h'
            refine mem_ten_step
              (fun x hx => List.mem_cons_of_mem b (List.mem_cons_of_mem b1
                (List.mem_cons_of_mem b2 (List.mem_cons_of_mem b3 hx)))) ?_
              (fun h hm => ih rest (by simp at hlen ⊢; omega) h hm) h' hmem
            intro hc
            exact absurd hc (cp4_ne_ten h5 h8)
          · rw [if_neg h8] at h'
            exact Option.noConfusion h'
        · rw [if_neg h7] at h'
          exact Option.noConfusion h'

/-- Sanity checks: the concrete scenarios of the specification (section 8),
evaluated on the embedding. -/
theorem last_lines_scenarios :
    last_lines utf8_decode "utf-8" [76, 49, 10, 76, 50, 10, 76, 51, 10] 4 =
      .ok [[76, 51, 10], [76, 50, 10], [76, 49, 10]] ∧
    last_lines utf8_decode "utf-8" [76, 49, 10, 76, 50, 10, 76, 51] 4 =
      .ok [[76, 51, 10], [76, 50, 10], [76, 49, 10]] ∧
    last_lines utf8_decode "utf-8" [] 4 = .ok [] ∧
    last_lines utf8_decode "utf-8" [10] 4 = .ok [[10]] :=
  ⟨rfl, rfl, rfl, rfl⟩

/-- Sanity checks for the UTF-8 decoder: a Euro sign decodes, a stray `0xFF`
and a surrogate are rejected. -/
theorem utf8_decode_scenarios :
    utf8_decode [76, 49, 226, 130, 172] = some [76, 49, 8364] ∧
    utf8_decode [255] = none ∧
    utf8_decode [237, 160, 128] = none :=
  ⟨rfl, rfl, rfl⟩

/-! Claim theorems. -/

/-- C1 (counterexample): the file whose only byte is `0xFF` is invalid UTF-8
and lies entirely in the file's first logical line (the final carried
fragment); read with `buf_size = 4` spanning the whole file, the run fails
with the retryable `bufferTooSmall` (the source's final-segment
`BufferTooSmallException`), not the terminal `malformedEncoding` the claim
requires for every position of the invalid bytes. -/
theorem c1_counterexample :
    last_lines utf8_decode "utf-8" [255] 4 = .error .bufferTooSmall ∧
    last_lines utf8_decode "utf-8" [255] 4 ≠ .error .malformedEncoding := by
  refine ⟨rfl, ?_⟩
  intro h
  have h' : (Except.error LLError.bufferTooSmall :
      Except LLError (List (List Nat))) = .error .malformedEncoding := h
  exact LLError.noConfusion (Except.error.inj h')

/-- C1 (amended): with a valid capacity, a decode failure with no unconsumed
bytes left surfaces as the terminal `malformedEncoding` only when the failing
fragment is not the final carried one; when the invalid bytes form the
file's first logical line — here, a delimiter-free wholly-invalid file, for
every capacity including one spanning the whole file — the run instead fails
with the retryable `bufferTooSmall`. -/
theorem c1_amended :
    (∀ (X : List Nat) (buf_size : Nat), 4 ≤ buf_size → 10 ∉ X →
      utf8_decode X = none →
      last_lines utf8_decode "utf-8" X buf_size = .error .bufferTooSmall) ∧
    (∀ (A Y : List Nat) (buf_size : Nat), 4 ≤ buf_size → 10 ∉ Y → Y ≠ [] →
      utf8_decode Y = none → (A ++ 10 :: Y).length ≤ buf_size →
      last_lines utf8_decode "utf-8" (A ++ 10 :: Y) buf_size =
        .error .malformedEncoding) := by
  constructor
  · intro X buf_size hbuf hX hdec
    have hne : X ≠ [] := by
      intro h
      subst h
      exact Option.noConfusion hdec
    have hval : ¬buf_size < min_buf_size "utf-8" := by
      have h4 : min_buf_size "utf-8" = 4 := rfl
      omega
    rw [last_lines_single_line utf8_decode "utf-8" hval hX hne, hdec]
  · intro A Y buf_size hbuf hY hYne hdec hlen
    have hval : ¬buf_size < min_buf_size "utf-8" := by
      have h4 : min_buf_size "utf-8" = 4 := rfl
      omega
    have hcne : A ++ 10 :: Y ≠ [] := by simp
    have hclen : ¬(A ++ 10 :: Y).length = 0 := by simp
    unfold last_lines
    rw [if_neg hval, if_neg hclen]
    rw [last_lines_go_single_chunk utf8_decode (A ++ 10 :: Y) buf_size
      (A ++ 10 :: Y).length hcne hlen (by omega)]
    have hstrip : strip_trailing (A ++ 10 :: Y) = A ++ 10 :: Y := by
      unfold strip_trailing
      rw [if_neg]
      intro hlast
      rw [List.getLast?_append_of_ne_nil A (List.cons_ne_nil 10 Y)] at hlast
      have h10Y : (10 :: Y).getLast? = Y.getLast? := by
        have := List.getLast?_append_of_ne_nil [10] hYne
        simpa using this
      rw [h10Y] at hlast
      exact hY (getLast?_mem_self hlast)
    rw [hstrip, splitOn_append_sep, splitOn_eq_single hY]
    cases hA : A.splitOn 10 with
    | nil => exact absurd hA (splitOn_ne_nil _ _)
    | cons a0 arest =>
      have htail : (((a0 :: arest) ++ [Y]) : List (List Nat)).tail.reverse =
          Y :: arest.reverse := by
        simp
      rw [htail]
      have hdl : decode_lines utf8_decode .malformedEncoding (Y :: arest.reverse) =
          .error .malformedEncoding := by
        simp only [decode_lines, hdec]
      rw [hdl]

/-- C1 (witness): the wholly-invalid one-byte file fails retryably; the
invalid bytes placed in the last logical line (with a valid first line) fail
terminally. -/
theorem c1_amended_witness :
    last_lines utf8_decode "utf-8" [255] 5 = .error .bufferTooSmall ∧
    last_lines utf8_decode "utf-8" ([97] ++ 10 :: [255]) 4 =
      .error .malformedEncoding :=
  ⟨c1_amended.1 [255] 5 (by decide) (by decide) rfl,
   c1_amended.2 [97] [255] 4 (by decide) (by decide) (by decide) rfl (by decide)⟩

/-- C2 (counterexample): calling the generator function runs none of its
body: with `buf_size = 3` below the UTF-8 minimum `4`, construction returns a
live, un-started session (no error is or can be raised at construction), and
the `configuration` error appears only on the first pull — the claim's
"synchronously at construction, before the first pull, even if the caller
never pulls" fails on the code. -/
theorem c2_counterexample :
    mkSession "utf-8" [104, 105] 3 =
      { encoding := "utf-8", content := [104, 105], buf_size := 3,
        started := false, done := false, segment := none,
        remaining_size := 0, pending := [] } ∧
    (pull utf8_decode (mkSession "utf-8" [104, 105] 3)).1 = .err .configuration :=
  ⟨rfl, rfl⟩

/-- C2 (amended): the capacity check runs at the start of the first pull
(generator bodies are deferred), but still before any file access: for every
file content, when the capacity is below the encoding minimum the first pull
returns the `configuration` error without consuming anything, and
construction itself always succeeds. -/
theorem c2_amended (decode : List Nat → Option (List Nat)) (encoding : String)
    (content : List Nat) (buf_size : Nat)
    (h : buf_size < min_buf_size encoding) :
    (mkSession encoding content buf_size).done = false ∧
    pull decode (mkSession encoding content buf_size) =
      (.err .configuration,
        { mkSession encoding content buf_size with started := true, done := true }) := by
  refine ⟨rfl, ?_⟩
  unfold pull
  rw [if_neg (by simp [mkSession])]
  rw [if_pos (show (mkSession encoding content buf_size).started = false from rfl)]
  rw [if_pos (show (mkSession encoding content buf_size).buf_size <
    min_buf_size (mkSession encoding content buf_size).encoding from h)]

/-- C2 (witness): concrete instance of the amended behaviour. -/
theorem c2_amended_witness :
    (mkSession "utf-8" [104] 3).done = false ∧
    pull utf8_decode (mkSession "utf-8" [104] 3) =
      (.err .configuration,
        { mkSession "utf-8" [104] 3 with started := true, done := true }) :=
  c2_amended utf8_decode "utf-8" [104] 3 (by decide)

/-- C3: on every run that completes without error, the emitted lines read in
reverse are exactly the file's logical lines in forward order, each decoded
and with one `\n` appended (so stripping that `\n` recovers the decoded
split element); an empty file emits nothing.  Stated for every decoder,
encoding name, content and capacity. -/
theorem c3_reverse_order (decode : List Nat → Option (List Nat))
    (encoding : String) (content : List Nat) (buf_size : Nat)
    (out : List (List Nat))
    (hok : last_lines decode encoding content buf_size = .ok out) :
    List.Forall₂ (decoded_line decode) (logical_lines content) out.reverse :=
  last_lines_ok_spec hok

/-- C3 (witness): the file `L1\nL2` emits `L2\n` then `L1\n`. -/
theorem c3_witness :
    List.Forall₂ (decoded_line utf8_decode) (logical_lines [76, 49, 10, 76, 50])
      ([[76, 50, 10], [76, 49, 10]] : List (List Nat)).reverse :=
  c3_reverse_order utf8_decode "utf-8" [76, 49, 10, 76, 50] 4
    [[76, 50, 10], [76, 49, 10]] rfl

/-- C4 (counterexample): UTF-16 is a variable-width multi-byte encoding, yet
the validation minimum the code computes for it is `1`, not `4`: the name
normalisation `utf16` is not in `('utf8', 'utf')`, so a capacity of `1` is
accepted (no `configuration` error), contradicting the claim that such
encodings must be rejected below `4`. -/
theorem c4_counterexample :
    min_buf_size "utf-16" = 1 ∧
    last_lines utf8_decode "utf-16" [] 1 = .ok [] ∧
    last_lines utf8_decode "utf-16" [] 1 ≠ .error .configuration := by
  refine ⟨rfl, rfl, ?_⟩
  intro h
  have h' : (Except.ok [] : Except LLError (List (List Nat))) =
      .error .configuration := h
  exact Except.noConfusion h'

/-- C4 (amended): the enforced minimum is `4` exactly when the encoding
name, lower-cased with hyphens removed, is `utf8` or `utf`, and `1` for
every other name (UTF-16 included); a run fails with `configuration` exactly
when the capacity is below that minimum, for every file content. -/
theorem c4_amended (decode : List Nat → Option (List Nat)) (encoding : String)
    (content : List Nat) (buf_size : Nat) :
    last_lines decode encoding content buf_size = .error .configuration ↔
      buf_size < min_buf_size encoding :=
  last_lines_config_iff decode encoding content buf_size

/-- C4 (witness): capacity 3 with UTF-8 is rejected with `configuration`. -/
theorem c4_amended_witness :
    last_lines utf8_decode "utf-8" [97] 3 = .error .configuration :=
  (c4_amended utf8_decode "utf-8" [97] 3).mpr (by decide)

/-- C5: the trailing strip drops exactly one byte, on the first chunk only,
and only when the file's last byte is `\n`: the lone-newline file emits
exactly the empty line; a single-line file with trailing newline emits that
line once, with no spurious empty line, for every line content and valid
capacity; and a file ending in two newlines has only one of them stripped —
the second shows up as an empty logical line. -/
theorem c5_trailing_strip :
    last_lines utf8_decode "utf-8" [10] 4 = .ok [[10]] ∧
    (∀ (X t : List Nat) (buf_size : Nat), 10 ∉ X → utf8_decode X = some t →
      4 ≤ buf_size →
      last_lines utf8_decode "utf-8" (X ++ [10]) buf_size = .ok [t ++ [10]]) ∧
    (∀ buf_size : Nat, 4 ≤ buf_size →
      last_lines utf8_decode "utf-8" [97, 10, 10] buf_size =
        .ok [[10], [97, 10]]) := by
  refine ⟨rfl, ?_, ?_⟩
  · intro X t buf_size hX hdec hbuf
    have hval : ¬buf_size < min_buf_size "utf-8" := by
      have h4 : min_buf_size "utf-8" = 4 := rfl
      omega
    rw [last_lines_single_line_trailing utf8_decode "utf-8" hval hX, hdec]
  · intro buf_size hbuf
    have hval : ¬buf_size < min_buf_size "utf-8" := by
      have h4 : min_buf_size "utf-8" = 4 := rfl
      omega
    unfold last_lines
    rw [if_neg hval, if_neg (by decide : ¬([97, 10, 10] : List Nat).length = 0)]
    rw [last_lines_go_single_chunk utf8_decode [97, 10, 10] buf_size
      ([97, 10, 10] : List Nat).length (by decide) (by simp; omega) (by decide)]
    rfl

/-- C5 (witness): concrete instances of all three parts. -/
theorem c5_witness :
    last_lines utf8_decode "utf-8" [10] 4 = .ok [[10]] ∧
    last_lines utf8_decode "utf-8" ([97] ++ [10]) 4 = .ok [[97] ++ [10]] ∧
    last_lines utf8_decode "utf-8" [97, 10, 10] 5 = .ok [[10], [97, 10]] :=
  ⟨c5_trailing_strip.1,
   c5_trailing_strip.2.1 [97] [97] 4 (by decide) rfl (by decide),
   c5_trailing_strip.2.2 5 (by decide)⟩

/-- C6: the backward chunk reader produces exactly the ranges of the
specification formula — starting from `consumed = 0`, each chunk is
`[size - min(size, consumed + capacity), size - consumed)` and `consumed`
grows by the chunk length until it reaches `size`; consecutive chunks tile
the file back-to-front (the next chunk ends where the previous one starts, so
no byte is read twice), the lengths sum to the file size, the first chunk
ends at `size`, the last starts at offset `0` (no read before the start), and
the empty file yields no chunks. -/
theorem c6_chunk_reader (file_size buf_size : Nat) (hb : 1 ≤ buf_size) :
    read_chunks file_size buf_size = chunk_spec file_size buf_size file_size 0 ∧
    List.Chain' (fun a b => b.2 = a.1) (read_chunks file_size buf_size) ∧
    ((read_chunks file_size buf_size).map (fun p => p.2 - p.1)).sum = file_size ∧
    (read_chunks file_size buf_size).head? =
      (if file_size = 0 then none
       else some (file_size - min file_size buf_size, file_size)) ∧
    ((read_chunks file_size buf_size).getLast?.map Prod.fst =
      (if file_size = 0 then none else some 0)) ∧
    read_chunks 0 buf_size = [] := by
  obtain ⟨hchain, hhead, hsum, hlast⟩ :=
    read_chunks_go_shape file_size buf_size hb file_size 0 file_size le_rfl
      (by omega)
  refine ⟨?_, hchain, hsum, hhead, hlast, rfl⟩
  unfold read_chunks
  rw [read_chunks_go_eq_spec file_size buf_size file_size 0 file_size (by omega)]
  congr 1
  omega

/-- C6 (witness): the reader on a 5-byte file with capacity 2. -/
theorem c6_witness :
    read_chunks 5 2 = chunk_spec 5 2 5 0 ∧
    List.Chain' (fun a b => b.2 = a.1) (read_chunks 5 2) ∧
    ((read_chunks 5 2).map (fun p => p.2 - p.1)).sum = 5 ∧
    (read_chunks 5 2).head? =
      (if (5 : Nat) = 0 then none else some (5 - min 5 2, 5)) ∧
    ((read_chunks 5 2).getLast?.map Prod.fst =
      (if (5 : Nat) = 0 then none else some 0)) ∧
    read_chunks 0 2 = [] :=
  c6_chunk_reader 5 2 (by decide)

/-- C7: whenever the line about to be yielded fails to decode while
unconsumed bytes remain (`0 < remaining_size`), the pull returns the
retryable `bufferTooSmall` error to its caller with the session otherwise
untouched (same `remaining_size` and `pending`: nothing is re-read or
retried internally, only `done` is set), and the next pull just reports the
generator as closed. -/
theorem c7_buffer_too_small (decode : List Nat → Option (List Nat))
    (s : Session) (l : List Nat) (rest : List (List Nat))
    (hdone : s.done = false) (hstart : s.started = true)
    (hp : s.pending = l :: rest) (hd : decode l = none)
    (hrem : 0 < s.remaining_size) :
    pull decode s = (.err .bufferTooSmall, { s with done := true }) ∧
    (pull decode { s with done := true }).1 = .stop := by
  constructor
  · unfold pull
    rw [if_neg (by simp [hdone]), if_neg (by simp [hstart])]
    conv_lhs => rw [hp]
    show yield_pending decode s l rest = _
    unfold yield_pending
    rw [hd, if_pos hrem]
  · unfold pull
    rw [if_pos (show ({ s with done := true } : Session).done = true from rfl)]

/-- C7 (witness): a session holding the undecodable pending line `[0xFF]`
with 2 bytes still unread fails retryably and then stops. -/
theorem c7_witness :
    pull utf8_decode
        { encoding := "utf-8", content := [65, 65], buf_size := 4,
          started := true, done := false, segment := some [],
          remaining_size := 2, pending := [[255]] } =
      (.err .bufferTooSmall,
        { encoding := "utf-8", content := [65, 65], buf_size := 4,
          started := true, done := true, segment := some [],
          remaining_size := 2, pending := [[255]] }) ∧
    (pull utf8_decode
        { encoding := "utf-8", content := [65, 65], buf_size := 4,
          started := true, done := true, segment := some [],
          remaining_size := 2, pending := [[255]] }).1 = .stop :=
  c7_buffer_too_small utf8_decode
    { encoding := "utf-8", content := [65, 65], buf_size := 4,
      started := true, done := false, segment := some [],
      remaining_size := 2, pending := [[255]] }
    [255] [] rfl rfl rfl rfl (by decide)

/-- C8: every item a successful run emits ends in exactly one `\n` — it is
some decoded text followed by a single appended `10`, and the text itself
contains no `10` (UTF-8 decoding cannot produce codepoint `10` from
delimiter-free bytes), so in particular a `\r` before the delimiter survives
as content, as in the CRLF file `L1\r\nL2\r\n` emitting `L2\r\n` then
`L1\r\n`. -/
theorem c8_trailing_newline :
    (∀ (content : List Nat) (buf_size : Nat) (out : List (List Nat)),
      last_lines utf8_decode "utf-8" content buf_size = .ok out →
      ∀ l ∈ out, ∃ t, l = t ++ [10] ∧ 10 ∉ t) ∧
    last_lines utf8_decode "utf-8" [76, 49, 13, 10, 76, 50, 13, 10] 4 =
      .ok [[76, 50, 13, 10], [76, 49, 13, 10]] := by
  constructor
  · intro content buf_size out hok l hl
    have hforall := last_lines_ok_spec hok
    have hlrev : l ∈ out.reverse := List.mem_reverse.mpr hl
    obtain ⟨p, hp, hR⟩ := forall₂_mem_right hforall l hlrev
    unfold decoded_line at hR
    obtain ⟨t, hdec, rfl⟩ := hR
    refine ⟨t, rfl, ?_⟩
    intro h10
    exact logical_lines_nl_free p hp
      (utf8_decode_mem_ten p.length p le_rfl hdec h10)
  · rfl

/-- C8 (witness): the CRLF run instantiated, and its first item decomposed. -/
theorem c8_witness :
    ∃ t, ([76, 50, 13, 10] : List Nat) = t ++ [10] ∧ 10 ∉ t :=
  c8_trailing_newline.1 [76, 49, 13, 10, 76, 50, 13, 10] 4
    [[76, 50, 13, 10], [76, 49, 13, 10]] rfl [76, 50, 13, 10] (by decide)

/-- C9 (counterexample): on the file `a\nXXXXX` with capacity 4, the very
first pull must read two chunks (the tail chunk `XXXX` holds no delimiter)
before it can yield `XXXXX\n`: one pull advances the chunk reader twice and
the consumed-byte counter grows by 7 > 4 = `buf_size`, refuting "each pull
advances the chunk reader at most once / consumed grows by at most
`buffer_capacity`". -/
theorem c9_counterexample :
    (pull utf8_decode (mkSession "utf-8" [97, 10, 88, 88, 88, 88, 88] 4)).1 =
      .line [88, 88, 88, 88, 88, 10] ∧
    (pull utf8_decode
      (mkSession "utf-8" [97, 10, 88, 88, 88, 88, 88] 4)).2.remaining_size = 0 ∧
    ¬((mkSession "utf-8" [97, 10, 88, 88, 88, 88, 88] 4).content.length -
        (pull utf8_decode
          (mkSession "utf-8" [97, 10, 88, 88, 88, 88, 88] 4)).2.remaining_size ≤
        (mkSession "utf-8" [97, 10, 88, 88, 88, 88, 88] 4).buf_size) :=
  ⟨rfl, rfl, by decide⟩

/-- C9 (amended): a pull first drains the lines already split from earlier
chunks without any read (the session changes only by dropping the served
pending line); when it does read (pending empty), it may advance the reader
several times — once per delimiter-free chunk — but never past the chunk
that completes a line: if it stops with bytes still unread, the last chunk
read, `[s'.remaining_size, s'.remaining_size + buf_size)`, contains a
delimiter.  Hence consuming only K of N lines reads only the chunks needed
for those K lines. -/
theorem c9_amended :
    (∀ (decode : List Nat → Option (List Nat)) (s : Session) (l t : List Nat)
        (rest : List (List Nat)),
      s.done = false → s.started = true → s.pending = l :: rest →
      decode l = some t →
      pull decode s = (.line (t ++ [10]), { s with pending := rest })) ∧
    (∀ (decode : List Nat → Option (List Nat)) (s : Session) (o : PullOut)
        (s' : Session),
      s.done = false → s.started = true → s.pending = [] →
      s.remaining_size < s.content.length → 1 ≤ s.buf_size →
      pull decode s = (o, s') → 0 < s'.remaining_size →
      10 ∈ (s.content.take (s'.remaining_size + s.buf_size)).drop
        s'.remaining_size) := by
  constructor
  · intro decode s l t rest hdone hstart hp hd
    unfold pull
    rw [if_neg (by simp [hdone]), if_neg (by simp [hstart]), hp]
    show yield_pending decode s l rest = _
    unfold yield_pending
    rw [hd]
  · intro decode s o s' hdone hstart hp hlt hb hpull hpos
    unfold pull at hpull
    rw [if_neg (by simp [hdone]), if_neg (by simp [hstart]), hp] at hpull
    have hpull' : read_step decode s.remaining_size s = (o, s') := hpull
    exact read_step_last_chunk decode s.remaining_size s o s' le_rfl hlt hb
      hpull' hpos

/-- C9 (witness): a drain-only pull leaves the reader untouched; a reading
pull that stops mid-file stopped at a delimiter-bearing chunk. -/
theorem c9_amended_witness :
    pull utf8_decode
        { encoding := "utf-8", content := [97, 10, 98], buf_size := 4,
          started := true, done := false, segment := some [],
          remaining_size := 0, pending := [[97]] } =
      (.line [97, 10],
        { encoding := "utf-8", content := [97, 10, 98], buf_size := 4,
          started := true, done := false, segment := some [],
          remaining_size := 0, pending := [] }) ∧
    10 ∈ (([97, 98, 99, 10, 101, 102, 103, 104, 105] : List Nat).take (3 + 4)).drop 3 := by
  constructor
  · exact c9_amended.1 utf8_decode
      { encoding := "utf-8", content := [97, 10, 98], buf_size := 4,
        started := true, done := false, segment := some [],
        remaining_size := 0, pending := [[97]] }
      [97] [97] [] rfl rfl rfl rfl
  · exact c9_amended.2 utf8_decode
      { encoding := "utf-8", content := [97, 98, 99, 10, 101, 102, 103, 104, 105],
        buf_size := 4, started := true, done := false, segment := some [122],
        remaining_size := 7, pending := [] }
      (.line [101, 102, 103, 122, 10])
      { encoding := "utf-8", content := [97, 98, 99, 10, 101, 102, 103, 104, 105],
        buf_size := 4, started := true, done := false, segment := some [],
        remaining_size := 3, pending := [] }
      rfl rfl rfl (by decide) (by decide) rfl (by decide)

/-- C10: in every session state reachable from a fresh generator, the
carried fragment (when present) never contains the newline delimiter — so
splitting it yields exactly one fragment, which is why the final carried
fragment is emitted as a single line. -/
theorem c10_carry_invariant (decode : List Nat → Option (List Nat))
    (encoding : String) (content : List Nat) (buf_size : Nat) (s : Session)
    (h : Reachable decode encoding content buf_size s) (seg : List Nat)
    (hseg : s.segment = some seg) :
    10 ∉ seg ∧ seg.splitOn 10 = [seg] :=
  ⟨reachable_segment_nl_free h seg hseg,
   splitOn_eq_single (reachable_segment_nl_free h seg hseg)⟩

/-- C10 (witness): after one pull on the file `a\nb`, the carried fragment
is `[97]` and the invariant holds for it. -/
theorem c10_witness :
    10 ∉ ([97] : List Nat) ∧ ([97] : List Nat).splitOn 10 = [[97]] :=
  c10_carry_invariant utf8_decode "utf-8" [97, 10, 98] 4
    { encoding := "utf-8", content := [97, 10, 98], buf_size := 4,
      started := true, done := false, segment := some [97],
      remaining_size := 0, pending := [] }
    (Reachable.step Reachable.init rfl) [97] rfl
